import Mathlib

/-!
Verification of the asynchronous recursive directory deleter
(`rm-rf-async.c`, GLib/Gio callback style).

The program is a single-threaded cooperative event machine: every
filesystem operation is issued asynchronously and its completion is
delivered as a callback on the one GLib main loop.  We embed it as a
small-step transition system:

* the filesystem is a tree (`FSTree`);
* each in-flight `AsyncRmContext` of the C code is a `Task`;
* the multiset of in-flight asynchronous operations is a queue of
  events (`Ev`); a step of the machine picks one queued completion and
  runs the corresponding C callback body atomically (GLib delivers
  callbacks one at a time on the single main-loop thread);
* the environment chooses the delivery order and whether a fallible
  operation fails, so the step relation is nondeterministic.

Ghost fields (instrumentation counters such as `sinkInvoked`,
`dirDeleteIssued`, the issue log, the dispatch log) record what the
code did; they never influence control flow.
-/

namespace RmRf

/-- A filesystem tree, as seen by an enumeration opened with
`G_FILE_QUERY_INFO_NOFOLLOW_SYMLINKS`: a symlink is reported with its
own type and is never followed, so it carries no children here. -/
inductive FSTree where
  | regular : FSTree
  | symlink : FSTree
  | special : FSTree
  | dir : List FSTree → FSTree

/-- Gio file types relevant to the program (`GFileType`). -/
inductive GFileType where
  | regular | directory | symbolicLink | special
deriving DecidableEq

/-- The type reported by `g_file_info_get_file_type` for an entry listed
with `NOFOLLOW_SYMLINKS`: a symlink reports `symbolicLink`, never the
type of its target. -/
def fileType : FSTree → GFileType
  | .regular => .regular
  | .symlink => .symbolicLink
  | .special => .special
  | .dir _ => .directory

/-- The children a directory entry exposes to a recursive walk
(non-directories expose none; the walk is never started on them). -/
def entryChildren : FSTree → List FSTree
  | .dir cs => cs
  | _ => []

mutual

/-- Number of filesystem entries in a tree, the entry itself included
(files + directories + symlinks; a symlink counts as one entry and its
target is not traversed). -/
def totalEntries : FSTree → Nat
  | .dir cs => 1 + totalList cs
  | _ => 1

/-- Sum of `totalEntries` over a list of sibling entries. -/
def totalList : List FSTree → Nat
  | [] => 0
  | c :: cs => totalEntries c + totalList cs

end

/-- Gio query flags used by `rm_rf_async` (line 199 of the C source). -/
inductive GFileQueryInfoFlags where
  | flagsNone | nofollowSymlinks
deriving DecidableEq

/-- The flag constant passed by `rm_rf_async` to
`g_file_enumerate_children_async` (C line 199):
`G_FILE_QUERY_INFO_NOFOLLOW_SYMLINKS`. -/
def enumerateFlags : GFileQueryInfoFlags := .nofollowSymlinks

/-- The attribute string passed to `g_file_enumerate_children_async`
(C line 198). -/
def queryAttributes : String := "standard::name,standard::type"

/-- The batch size passed to `g_file_enumerator_next_files_async`
(C lines 136 and 180). -/
def batchSize : Nat := 20

/-- One `AsyncRmContext` of the C code (C lines 26-33), plus ghost
instrumentation.  Real code state: `pending` (`num_files_pending`),
`haveMore` (`have_more_files`), `cancellable`, `parent` (the
`GSimpleAsyncResult` callback: the parent context for a child task,
none for the root whose callback is `on_rm_finished`), `enumRemaining`
(entries the enumerator has not yet yielded).  Everything else is
ghost. -/
structure Task where
  /-- Ghost: the filesystem entry this task was created for. -/
  origin : FSTree
  /-- Ghost: the immediate children of the directory being deleted. -/
  sub : List FSTree
  /-- Entries the directory enumerator has not yet yielded. -/
  enumRemaining : List FSTree
  /-- `num_files_pending` (C uses a `guint`; we use `Int` so that an
  unmatched decrement would be visible as a negative value instead of
  wrapping). -/
  pending : Int
  /-- `have_more_files`. -/
  haveMore : Bool
  /-- `cancellable` stored in the context (C line 196). -/
  cancellable : Option Nat
  /-- Parent task index, or none for the root task. -/
  parent : Option Nat
  /-- Ghost: set when the empty batch was observed and the enumerator
  closed (= the spec's `listingExhausted`). -/
  exhausted : Bool
  /-- Ghost: number of times `g_file_delete_async` was issued on this
  task's own directory (C line 81). -/
  dirDeleteIssued : Nat
  /-- Ghost: number of times that delete reported success
  (C line 66). -/
  dirDeleteSucceeded : Nat
  /-- Ghost: number of times this task's completion sink
  (`g_simple_async_result_complete`, C line 71) was invoked. -/
  sinkInvoked : Nat
  /-- Ghost: number of `num_files_pending++` executions (C line 154). -/
  incrs : Nat
  /-- Ghost: number of `num_files_pending--` executions
  (C lines 98 and 113). -/
  decrs : Nat

instance : Inhabited Task :=
  ⟨⟨.dir [], [], [], 0, false, none, none, false, 0, 0, 0, 0, 0⟩⟩

/-- An in-flight asynchronous operation, waiting for its completion
callback to be delivered by the main loop.  The `Nat` is the index of
the owning task. -/
inductive Ev where
  | enumDone : Nat → Ev
  | nextFilesDone : Nat → Ev
  | fileDelDone : Nat → Ev
  | dirDelDone : Nat → Ev
deriving DecidableEq

/-- The call site at which an asynchronous operation was issued. -/
inductive Site where
  /-- `g_file_enumerate_children_async` (C line 198). -/
  | enumerate
  /-- First `g_file_enumerator_next_files_async` (C line 180). -/
  | firstNext
  /-- Continuation `g_file_enumerator_next_files_async` (C line 136). -/
  | contNext
  /-- Leaf `g_file_delete_async` (C line 161). -/
  | leafDelete
  /-- Directory `g_file_delete_async` (C line 81). -/
  | dirDelete
deriving DecidableEq

/-- Ghost log record of one issued asynchronous operation: its call
site, the cancellable actually passed, and (for enumerations) the
query flags actually passed. -/
structure Issue where
  site : Site
  tok : Option Nat
  flags : Option GFileQueryInfoFlags
deriving DecidableEq

/-- Ghost log record of one per-entry dispatch in `on_next_files`
(C lines 149-164): the entry and whether the code recursed
(`rm_rf_async`) rather than issuing a leaf delete. -/
structure Dispatch where
  entry : FSTree
  recursed : Bool

/-- `print_progress` (C lines 230-235): prints the counter and returns
FALSE, i.e. `G_SOURCE_REMOVE` — the value returned to GLib decides
whether the timeout source stays installed. -/
def print_progress (filesDeleted : Nat) : Nat × Bool :=
  (filesDeleted, false)

/-- The number of values of C's 32-bit unsigned `guint`: 2^32. -/
def guintSize : Nat := 4294967296

/-- `files_deleted++` on the 32-bit unsigned global (C lines 69 and
96): unsigned increment wraps modulo 2^32. -/
def guint_incr (d : Nat) : Nat := (d + 1) % guintSize

/-- The whole program state: the task table (tasks are never removed,
their ghost fields outlive `g_free`), the multiset of in-flight
operations, the `files_deleted` global (C line 35), the main-loop /
process bookkeeping, and the ghost logs. -/
structure Config where
  tasks : List Task
  queue : List Ev
  /-- The global `files_deleted` counter (C line 35): a 32-bit
  unsigned `guint`, so each `files_deleted++` wraps modulo 2^32. -/
  filesDeleted : Nat
  /-- Ghost: the exact number of successful deletions so far — what
  `files_deleted` would hold if it could not wrap. -/
  deletions : Nat
  /-- `g_main_loop_quit` has been called (C line 227). -/
  rootDone : Bool
  /-- Some code once the process exited, with the exit code. -/
  exited : Option Nat
  /-- Messages printed to stderr by `fatal_gerror` (C line 54). -/
  stderrLog : List String
  /-- Values printed to stdout by `print_progress`. -/
  prints : List Nat
  /-- Ghost: number of times the 1-second timeout source fired. -/
  timerFires : Nat
  /-- The 1-second timeout source is installed (C line 254). -/
  timerActive : Bool
  /-- Ghost: log of issued asynchronous operations. -/
  issues : List Issue
  /-- Ghost: log of per-entry dispatches. -/
  dispatches : List Dispatch

/-- `rm_rf_async` (C lines 184-202) restricted to its effect on our
state: allocate a fresh `AsyncRmContext` and issue
`g_file_enumerate_children_async` with `NOFOLLOW_SYMLINKS`, the given
cancellable and callback.  `entry` is the directory being deleted,
`cs` its children, `par` the parent task (none for the root). -/
def rm_rf_async (entry : FSTree) (cs : List FSTree) (par : Option Nat)
    (cancel : Option Nat) (c : Config) : Config :=
  { c with
    tasks := c.tasks ++
      [{ origin := entry, sub := cs, enumRemaining := cs, pending := 0,
         haveMore := false, cancellable := cancel, parent := par,
         exhausted := false, dirDeleteIssued := 0, dirDeleteSucceeded := 0,
         sinkInvoked := 0, incrs := 0, decrs := 0 }],
    queue := c.queue ++ [.enumDone c.tasks.length],
    issues := c.issues ++ [⟨.enumerate, cancel, some enumerateFlags⟩] }

/-- `check_no_children` (C lines 77-83): if no child operation is
pending and the listing reported no more files, issue the asynchronous
delete of the directory itself, with `data->cancellable`. -/
def check_no_children (t : Nat) (c : Config) : Config :=
  match c.tasks[t]? with
  | none => c
  | some k =>
    if k.pending = 0 ∧ k.haveMore = false then
      { c with
        tasks := c.tasks.set t { k with dirDeleteIssued := k.dirDeleteIssued + 1 },
        queue := c.queue ++ [.dirDelDone t],
        issues := c.issues ++ [⟨.dirDelete, k.cancellable, none⟩] }
    else c

/-- The shared decrement-and-reevaluate transition: `num_files_pending--`
followed by `check_no_children` (C lines 98-99 and 113-114). -/
def decrement_and_check (t : Nat) (c : Config) : Config :=
  match c.tasks[t]? with
  | none => c
  | some k =>
    let k' := { k with pending := k.pending - 1, decrs := k.decrs + 1 }
    check_no_children t { c with tasks := c.tasks.set t k' }

/-- `on_enumerate_children` (C lines 167-182), success case: issue the
first `next_files_async` request (batch size 20, `data->cancellable`). -/
def on_enumerate_children (t : Nat) (q₁ q₂ : List Ev) (c : Config) : Config :=
  match c.tasks[t]? with
  | none => { c with queue := q₁ ++ q₂ }
  | some k =>
    { c with
      queue := q₁ ++ q₂ ++ [.nextFilesDone t],
      issues := c.issues ++ [⟨.firstNext, k.cancellable, none⟩] }

/-- One iteration of the dispatch loop of `on_next_files`
(C lines 149-164): `num_files_pending++`, then recurse for a directory
entry (`rm_rf_async` with `data->cancellable`) or issue a leaf
`g_file_delete_async` with a NULL cancellable (C line 161). -/
def dispatchOne (t : Nat) (e : FSTree) (c : Config) : Config :=
  match c.tasks[t]? with
  | none => c
  | some k =>
    let k' := { k with pending := k.pending + 1, incrs := k.incrs + 1 }
    let c' := { c with tasks := c.tasks.set t k' }
    if fileType e = .directory then
      { (rm_rf_async e (entryChildren e) (some t) k.cancellable c') with
        dispatches := c'.dispatches ++ [⟨e, true⟩] }
    else
      { c' with
        queue := c'.queue ++ [.fileDelDone t],
        issues := c'.issues ++ [⟨.leafDelete, none, none⟩],
        dispatches := c'.dispatches ++ [⟨e, false⟩] }

/-- The dispatch loop of `on_next_files` over one whole batch. -/
def dispatchBatch (t : Nat) (batch : List FSTree) (c : Config) : Config :=
  match batch with
  | [] => c
  | e :: rest => dispatchBatch t rest (dispatchOne t e c)

/-- `on_next_files` (C lines 117-165), success case.  The enumerator
yields the next (up to) 20 entries.  Non-empty batch: set
`have_more_files`, immediately request the next batch (C line 136:
cancellable is NULL there), then dispatch every entry of this batch.
Empty batch: clear `have_more_files`, close the enumerator
(synchronously) and run `check_no_children`; the dispatch loop is a
no-op. -/
def on_next_files (t : Nat) (q₁ q₂ : List Ev) (c : Config) : Config :=
  match c.tasks[t]? with
  | none => { c with queue := q₁ ++ q₂ }
  | some k =>
    let batch := k.enumRemaining.take batchSize
    if batch.isEmpty then
      check_no_children t
        { c with
          queue := q₁ ++ q₂,
          tasks := c.tasks.set t { k with haveMore := false, exhausted := true } }
    else
      dispatchBatch t batch
        { c with
          queue := q₁ ++ q₂ ++ [.nextFilesDone t],
          tasks := c.tasks.set t
            { k with haveMore := true,
                     enumRemaining := k.enumRemaining.drop batchSize },
          issues := c.issues ++ [⟨.contNext, none, none⟩] }

/-- `on_file_deleted` (C lines 85-100), success case: `files_deleted++`,
then decrement-and-reevaluate on the owning task. -/
def on_file_deleted (t : Nat) (q₁ q₂ : List Ev) (c : Config) : Config :=
  decrement_and_check t
    { c with queue := q₁ ++ q₂, filesDeleted := guint_incr c.filesDeleted,
             deletions := c.deletions + 1 }

/-- `on_rm_finished` (C lines 216-228), success case (`rm_rf_finish`
cannot fail here because no error is ever set on the simple result):
quit the main loop. -/
def on_rm_finished (c : Config) : Config :=
  { c with rootDone := true }

/-- `on_end_directory_deleted` (C lines 58-75), success case:
`files_deleted++`, then `g_simple_async_result_complete` invokes the
task's completion sink — `on_rm_rf_complete` of the parent context
(C lines 102-115: decrement-and-reevaluate) or `on_rm_finished` for
the root. -/
def on_end_directory_deleted (t : Nat) (q₁ q₂ : List Ev) (c : Config) : Config :=
  match c.tasks[t]? with
  | none => { c with queue := q₁ ++ q₂ }
  | some k =>
    let c' := { c with
      queue := q₁ ++ q₂,
      filesDeleted := guint_incr c.filesDeleted,
      deletions := c.deletions + 1,
      tasks := c.tasks.set t
        { k with dirDeleteSucceeded := k.dirDeleteSucceeded + 1,
                 sinkInvoked := k.sinkInvoked + 1 } }
    match k.parent with
    | some p => decrement_and_check p c'
    | none => on_rm_finished c'

/-- `fatal_gerror` (C lines 51-56): print the message to stderr and
`exit (1)`.  Every error branch of every callback funnels here. -/
def fatal_gerror (msg : String) (c : Config) : Config :=
  { c with stderrLog := c.stderrLog ++ [msg], exited := some 1 }

/-- One fire of the 1-second timeout source: print the counter; the
source stays installed only if the callback returns TRUE
(`print_progress` returns FALSE, C line 234). -/
def timer_fire (c : Config) : Config :=
  { c with
    prints := c.prints ++ [(print_progress c.filesDeleted).1],
    timerFires := c.timerFires + 1,
    timerActive := (print_progress c.filesDeleted).2 }

/-- The tail of `main` (C lines 256-260): once the loop has quit,
print the final counter value and return 0. -/
def main_return (c : Config) : Config :=
  { c with prints := c.prints ++ [(print_progress c.filesDeleted).1],
           exited := some 0 }

/-- The initial state of `main` (C lines 237-261) run on a root
directory with children `cs`:  `rm_rf_async` on the root (with the
cancellable `main` would pass — the engine is parametric in it, `main`
itself passes NULL) and the 1-second progress timer installed. -/
def init (cs : List FSTree) (cancel : Option Nat) : Config :=
  rm_rf_async (.dir cs) cs none cancel
    { tasks := [], queue := [], filesDeleted := 0, deletions := 0, rootDone := false,
      exited := none, stderrLog := [], prints := [], timerFires := 0,
      timerActive := true, issues := [], dispatches := [] }

/-- One step of the main loop: deliver one in-flight completion (in
any order — the environment schedules I/O), let one fallible operation
fail (the environment chooses), fire the timer, or return from `main`
once the loop has quit.  Steps exist only while the process is
alive. -/
inductive Step : Config → Config → Prop where
  | enumOk (c : Config) (t : Nat) (q₁ q₂ : List Ev)
      (halive : c.exited = none)
      (hq : c.queue = q₁ ++ Ev.enumDone t :: q₂) :
      Step c (on_enumerate_children t q₁ q₂ c)
  | nextOk (c : Config) (t : Nat) (q₁ q₂ : List Ev)
      (halive : c.exited = none)
      (hq : c.queue = q₁ ++ Ev.nextFilesDone t :: q₂) :
      Step c (on_next_files t q₁ q₂ c)
  | fileOk (c : Config) (t : Nat) (q₁ q₂ : List Ev)
      (halive : c.exited = none)
      (hq : c.queue = q₁ ++ Ev.fileDelDone t :: q₂) :
      Step c (on_file_deleted t q₁ q₂ c)
  | dirOk (c : Config) (t : Nat) (q₁ q₂ : List Ev)
      (halive : c.exited = none)
      (hq : c.queue = q₁ ++ Ev.dirDelDone t :: q₂) :
      Step c (on_end_directory_deleted t q₁ q₂ c)
  | opErr (c : Config) (ev : Ev) (q₁ q₂ : List Ev) (msg : String)
      (halive : c.exited = none)
      (hq : c.queue = q₁ ++ ev :: q₂) :
      Step c (fatal_gerror msg c)
  | timer (c : Config)
      (halive : c.exited = none)
      (hact : c.timerActive = true) :
      Step c (timer_fire c)
  | finish (c : Config)
      (halive : c.exited = none)
      (hdone : c.rootDone = true) :
      Step c (main_return c)

/-- Reachability from a given start state. -/
inductive Reach (a : Config) : Config → Prop where
  | refl : Reach a a
  | tail : ∀ {b c : Config}, Reach a b → Step b c → Reach a c

end RmRf

namespace RmRf

def cA0 : Config := init [] none

def cA1 : Config := on_enumerate_children 0 [] [] cA0

def cA2 : Config := on_next_files 0 [] [] cA1

def cA3 : Config := on_end_directory_deleted 0 [] [] cA2

def cA4 : Config := main_return cA3

end RmRf

namespace RmRf

/-- Does this event belong to task `i` and drive its listing
(enumeration open or batch fetch)? -/
def isDriver (i : Nat) : Ev → Bool
  | .enumDone j => j == i
  | .nextFilesDone j => j == i
  | _ => false

/-- Is this event an in-flight leaf delete owned by task `i`? -/
def isFileDel (i : Nat) : Ev → Bool
  | .fileDelDone j => j == i
  | _ => false

/-- Is this event the in-flight delete of task `i`'s own directory? -/
def isDirDel (i : Nat) : Ev → Bool
  | .dirDelDone j => j == i
  | _ => false

/-- The task an event belongs to. -/
def evTask : Ev → Nat
  | .enumDone j => j
  | .nextFilesDone j => j
  | .fileDelDone j => j
  | .dirDelDone j => j

/-- Number of counter increments an in-flight operation will still
contribute when it completes successfully. -/
def evW : Ev → Nat
  | .fileDelDone _ => 1
  | .dirDelDone _ => 1
  | _ => 0

/-- Number of counter increments a task's not-yet-issued work will
still contribute: entries the enumerator has not yielded, plus the
task's own directory delete if not yet issued. -/
def taskW (k : Task) : Nat :=
  totalList k.enumRemaining + (if k.dirDeleteIssued = 0 then 1 else 0)

/-- Is `k` a child task of task `i` whose completion sink has not yet
fired (i.e. an outstanding child operation of `i`)? -/
def isLiveChild (i : Nat) (k : Task) : Bool :=
  k.parent == some i && k.sinkInvoked == 0

/-- The deletion-accounting weight of a state: deletions already
performed (the exact ghost count — the stored `files_deleted` is this
modulo 2^32) plus every increment still owed by in-flight operations
and not-yet-dispatched work. -/
def weight (c : Config) : Nat :=
  c.deletions + (c.queue.map evW).sum + (c.tasks.map taskW).sum

/-- The cancellable each issue site actually passes (from the C call
sites): the context's cancellable for the enumeration open (line 200),
the first batch fetch (line 180) and the directory delete (line 81);
NULL for continuation batch fetches (line 136) and leaf deletes
(line 161). -/
def siteTok (tok : Option Nat) : Site → Option Nat
  | .enumerate => tok
  | .firstNext => tok
  | .dirDelete => tok
  | .contNext => none
  | .leafDelete => none

/-- The query flags each issue site passes: only the enumeration open
takes flags, and it passes `NOFOLLOW_SYMLINKS` (C line 199). -/
def siteFlags : Site → Option GFileQueryInfoFlags
  | .enumerate => some enumerateFlags
  | _ => none

theorem totalList_append (l₁ l₂ : List FSTree) :
    totalList (l₁ ++ l₂) = totalList l₁ + totalList l₂ := by
  induction l₁ with
  | nil => simp [totalList]
  | cons a tl ih => simp [totalList, ih]; omega

theorem totalList_take_drop (n : Nat) (l : List FSTree) :
    totalList (l.take n) + totalList (l.drop n) = totalList l := by
  conv_rhs => rw [← List.take_append_drop n l]
  rw [totalList_append]

theorem getElem?_set_cases {α : Type} {l : List α} {j i : Nat} {v k : α}
    (h : (l.set j v)[i]? = some k) :
    (i = j ∧ k = v ∧ j < l.length) ∨ (i ≠ j ∧ l[i]? = some k) := by
  by_cases hij : i = j
  · subst hij
    by_cases hlt : i < l.length
    · left
      rw [List.getElem?_set_eq_of_lt v hlt] at h
      exact ⟨rfl, (Option.some_inj.mp h).symm, hlt⟩
    · rw [List.set_eq_of_length_le (Nat.le_of_not_lt hlt)] at h
      rw [List.getElem?_eq_none (Nat.le_of_not_lt hlt)] at h
      cases h
  · right
    rw [List.getElem?_set_ne (fun he => hij he.symm)] at h
    exact ⟨hij, h⟩

theorem getElem?_append_one {α : Type} {l : List α} {i : Nat} {v k : α}
    (h : (l ++ [v])[i]? = some k) :
    l[i]? = some k ∨ (i = l.length ∧ k = v) := by
  by_cases hlt : i < l.length
  · left; rw [List.getElem?_append_left hlt] at h; exact h
  · right
    by_cases he : i = l.length
    · subst he
      rw [List.getElem?_concat_length] at h
      exact ⟨rfl, (Option.some_inj.mp h).symm⟩
    · exfalso
      have : l.length + 1 ≤ i := by omega
      rw [List.getElem?_eq_none (by simpa using this)] at h
      cases h

theorem countP_set {α : Type} {l : List α} {j : Nat} {k : α} (v : α)
    (p : α → Bool) (h : l[j]? = some k) :
    (l.set j v).countP p + (if p k then 1 else 0)
      = l.countP p + (if p v then 1 else 0) := by
  induction l generalizing j with
  | nil => cases h
  | cons a tl ih =>
    cases j with
    | zero =>
      simp only [List.getElem?_cons_zero, Option.some_inj] at h
      subst h
      simp [List.countP_cons]
      omega
    | succ j' =>
      simp only [List.getElem?_cons_succ] at h
      simp only [List.set_cons_succ, List.countP_cons]
      have := ih h
      omega

theorem countP_set_congr {α : Type} {l : List α} {j : Nat} {k : α} (v : α)
    (p : α → Bool) (h : l[j]? = some k) (hpv : p v = p k) :
    (l.set j v).countP p = l.countP p := by
  have := countP_set v p h
  rw [hpv] at this
  omega

theorem sum_map_set {α : Type} {l : List α} {j : Nat} {k : α} (v : α)
    (f : α → Nat) (h : l[j]? = some k) :
    ((l.set j v).map f).sum + f k = (l.map f).sum + f v := by
  induction l generalizing j with
  | nil => cases h
  | cons a tl ih =>
    cases j with
    | zero =>
      simp only [List.getElem?_cons_zero, Option.some_inj] at h
      subst h
      simp [List.set_cons_zero]
      omega
    | succ j' =>
      simp only [List.getElem?_cons_succ] at h
      simp only [List.set_cons_succ, List.map_cons, List.sum_cons]
      have := ih h
      omega

theorem countP_pos_of_getElem? {α : Type} {l : List α} {i : Nat} {k : α}
    (p : α → Bool) (h : l[i]? = some k) (hp : p k = true) :
    0 < l.countP p := by
  rw [List.countP_pos_iff]
  exact ⟨k, List.getElem?_mem h, hp⟩

end RmRf

namespace RmRf

/-- The per-task invariant that every reachable state satisfies, for
task `k` at index `i` of the task table `ts`, with in-flight queue
`q`. -/
structure TInv (q : List Ev) (ts : List Task) (tok : Option Nat) (off : Nat) (i : Nat) (k : Task) : Prop where
  /-- A task is only ever created for a directory entry. -/
  originDir : ∃ cs, k.origin = FSTree.dir cs ∧ k.sub = cs
  /-- Until its listing is exhausted, a task has exactly one in-flight
  listing operation (enumeration open or batch fetch); afterwards,
  none. -/
  driver : q.countP (isDriver i) = (if k.exhausted then 0 else 1)
  /-- Once exhausted, the enumerator has yielded everything and
  `have_more_files` is false forever. -/
  exhRem : k.exhausted = true → k.enumRemaining = [] ∧ k.haveMore = false
  /-- `have_more_files` is false only before the first dispatch or
  after exhaustion. -/
  moreEx : k.haveMore = false → k.incrs = 0 ∨ k.exhausted = true
  /-- `num_files_pending` equals increments minus decrements. -/
  pendEq : k.pending = (k.incrs : Int) - (k.decrs : Int)
  /-- Every increment is matched by an outstanding child operation
  (an in-flight leaf delete or a live child task) or by a decrement
  already performed. -/
  oblig : k.incrs = k.decrs + off + q.countP (isFileDel i)
      + ts.countP (isLiveChild i)
  /-- The task's own directory delete is issued at most once. -/
  issuedLe : k.dirDeleteIssued ≤ 1
  /-- The directory delete has been issued exactly when no child
  operation is pending and the listing is exhausted. -/
  issuedIff : k.dirDeleteIssued = 1 ↔ (k.pending = 0 ∧ k.exhausted = true)
  /-- An issued directory delete is either still in flight or has
  succeeded (a failure kills the process and ends the run). -/
  dirDelEq : k.dirDeleteIssued = q.countP (isDirDel i) + k.dirDeleteSucceeded
  /-- The completion sink fires exactly on own-directory-delete
  success. -/
  sinkEq : k.sinkInvoked = k.dirDeleteSucceeded
  /-- Every task stores the one cancellable passed to the top-level
  operation (C line 157 propagates `data->cancellable`). -/
  cancelEq : k.cancellable = tok
  /-- Children are created after their parent. -/
  parentLt : ∀ p, k.parent = some p → p < i
  /-- Only the root task has no parent. -/
  parentRoot : k.parent = none → i = 0

/-- The global invariant of reachable states of a run started by
`init cs tok`, where `total = totalEntries (.dir cs)`. -/
structure Inv (total : Nat) (tok : Option Nat) (c : Config) : Prop where
  tasksNe : 0 < c.tasks.length
  task : ∀ i k, c.tasks[i]? = some k → TInv c.queue c.tasks tok 0 i k
  /-- The main loop has quit exactly when the root task's sink
  (`on_rm_finished`) has fired. -/
  rootIff : ∀ r, c.tasks[0]? = some r → (c.rootDone = true ↔ r.sinkInvoked = 1)
  /-- Every issued operation carried the cancellable its C call site
  passes. -/
  issueTok : ∀ is ∈ c.issues, is.tok = siteTok tok is.site
  /-- Every issued operation carried the flags its C call site
  passes. -/
  issueFlags : ∀ is ∈ c.issues, is.flags = siteFlags is.site
  /-- Every dispatched entry recursed exactly when Gio reported it as
  a directory. -/
  dispOk : ∀ d ∈ c.dispatches,
      d.recursed = decide (fileType d.entry = GFileType.directory)
  /-- The 1-second source fires at most once in a whole run. -/
  timerLe : c.timerFires ≤ 1
  timerFresh : c.timerActive = true → c.timerFires = 0
  /-- In-flight operations always reference existing tasks. -/
  evValid : ∀ ev ∈ c.queue, evTask ev < c.tasks.length
  /-- Deletion accounting: counted plus owed is constant. -/
  wt : weight c = total

theorem init_inv (cs : List FSTree) (tok : Option Nat) :
    Inv (totalEntries (.dir cs)) tok (init cs tok) := by
  constructor
  case tasksNe => simp [init, rm_rf_async]
  case task =>
    intro i k h
    simp only [init, rm_rf_async, List.nil_append] at h
    have hi : i = 0 := by
      cases i with
      | zero => rfl
      | succ n => simp at h
    subst hi
    simp only [List.getElem?_cons_zero, Option.some_inj] at h
    subst h
    constructor <;>
      simp [isDriver, isFileDel, isDirDel, isLiveChild, List.countP_cons,
        init, rm_rf_async]
  case rootIff =>
    intro r h
    simp only [init, rm_rf_async, List.nil_append, List.getElem?_cons_zero,
      Option.some_inj] at h
    subst h
    simp [init, rm_rf_async]
  case issueTok =>
    intro is h
    simp only [init, rm_rf_async, List.nil_append, List.mem_singleton] at h
    subst h
    simp [siteTok]
  case issueFlags =>
    intro is h
    simp only [init, rm_rf_async, List.nil_append, List.mem_singleton] at h
    subst h
    simp [siteFlags]
  case dispOk => intro d h; simp [init, rm_rf_async] at h
  case timerLe => simp [init, rm_rf_async]
  case timerFresh => intro _; simp [init, rm_rf_async]
  case evValid =>
    intro ev h
    simp only [init, rm_rf_async, List.nil_append, List.mem_singleton] at h
    subst h
    simp [evTask, init, rm_rf_async]
  case wt =>
    simp [weight, init, rm_rf_async, evW, taskW, totalEntries]
    omega

end RmRf

namespace RmRf

theorem exists_task_of_lt {c : Config} {t : Nat} (h : t < c.tasks.length) :
    ∃ k, c.tasks[t]? = some k :=
  ⟨c.tasks[t], List.getElem?_eq_getElem h⟩

theorem fatal_inv {total tok c msg} (h : Inv total tok c) :
    Inv total tok (fatal_gerror msg c) :=
  ⟨h.tasksNe, h.task, h.rootIff, h.issueTok, h.issueFlags, h.dispOk,
   h.timerLe, h.timerFresh, h.evValid, h.wt⟩

theorem main_return_inv {total tok c} (h : Inv total tok c) :
    Inv total tok (main_return c) :=
  ⟨h.tasksNe, h.task, h.rootIff, h.issueTok, h.issueFlags, h.dispOk,
   h.timerLe, h.timerFresh, h.evValid, h.wt⟩

theorem timer_inv {total tok c} (h : Inv total tok c)
    (hact : c.timerActive = true) : Inv total tok (timer_fire c) := by
  refine ⟨h.tasksNe, h.task, h.rootIff, h.issueTok, h.issueFlags, h.dispOk,
    ?_, ?_, h.evValid, h.wt⟩
  · have := h.timerFresh hact
    simp [timer_fire]
    omega
  · intro hx
    simp [timer_fire, print_progress] at hx

theorem enum_inv {total tok c t q₁ q₂} (h : Inv total tok c)
    (hq : c.queue = q₁ ++ Ev.enumDone t :: q₂) :
    Inv total tok (on_enumerate_children t q₁ q₂ c) := by
  have htv : t < c.tasks.length := by
    have := h.evValid (Ev.enumDone t) (by rw [hq]; simp)
    simpa [evTask] using this
  obtain ⟨k, hk⟩ := exists_task_of_lt htv
  have hti := h.task t k hk
  unfold on_enumerate_children
  rw [hk]
  refine ⟨h.tasksNe, ?_, h.rootIff, ?_, ?_, h.dispOk, h.timerLe,
    h.timerFresh, ?_, ?_⟩
  · intro i k₂ hi
    have h0 := h.task i k₂ hi
    have hd : (q₁ ++ q₂ ++ [Ev.nextFilesDone t]).countP (isDriver i)
        = c.queue.countP (isDriver i) := by
      rw [hq]
      simp [List.countP_append, List.countP_cons, isDriver]
    have hf : (q₁ ++ q₂ ++ [Ev.nextFilesDone t]).countP (isFileDel i)
        = c.queue.countP (isFileDel i) := by
      rw [hq]
      simp [List.countP_append, List.countP_cons, isFileDel]
    have hdd : (q₁ ++ q₂ ++ [Ev.nextFilesDone t]).countP (isDirDel i)
        = c.queue.countP (isDirDel i) := by
      rw [hq]
      simp [List.countP_append, List.countP_cons, isDirDel]
    exact ⟨h0.originDir, by rw [hd]; exact h0.driver, h0.exhRem, h0.moreEx,
      h0.pendEq, by rw [hf]; exact h0.oblig, h0.issuedLe, h0.issuedIff,
      by rw [hdd]; exact h0.dirDelEq, h0.sinkEq, h0.cancelEq, h0.parentLt,
      h0.parentRoot⟩
  · intro is his
    simp only [List.mem_append, List.mem_singleton] at his
    rcases his with his | his
    · exact h.issueTok is his
    · subst his
      simp [siteTok, hti.cancelEq]
  · intro is his
    simp only [List.mem_append, List.mem_singleton] at his
    rcases his with his | his
    · exact h.issueFlags is his
    · subst his
      simp [siteFlags]
  · intro ev hev
    simp only [List.mem_append, List.mem_singleton] at hev
    rcases hev with (hev | hev) | hev
    · exact h.evValid ev (by rw [hq]; simp [hev])
    · exact h.evValid ev (by rw [hq]; simp [hev])
    · subst hev
      simpa [evTask] using htv
  · have hw := h.wt
    simp only [weight, hq, List.map_append, List.sum_append, List.map_cons,
      List.sum_cons, List.map_nil, List.sum_nil, evW] at hw ⊢
    omega

end RmRf

namespace RmRf

/-- The intermediate invariant holding right after an outstanding child
operation of task `t` has been consumed from the queue (and accounted)
but before the matching `num_files_pending--`: task `t`'s increments
exceed its decrements-plus-outstanding-operations by exactly one. -/
structure InvP (total : Nat) (tok : Option Nat) (t : Nat) (c : Config) : Prop where
  tasksNe : 0 < c.tasks.length
  tlen : t < c.tasks.length
  task : ∀ i k, c.tasks[i]? = some k →
    TInv c.queue c.tasks tok (if i = t then 1 else 0) i k
  rootIff : ∀ r, c.tasks[0]? = some r → (c.rootDone = true ↔ r.sinkInvoked = 1)
  issueTok : ∀ is ∈ c.issues, is.tok = siteTok tok is.site
  issueFlags : ∀ is ∈ c.issues, is.flags = siteFlags is.site
  dispOk : ∀ d ∈ c.dispatches,
      d.recursed = decide (fileType d.entry = GFileType.directory)
  timerLe : c.timerFires ≤ 1
  timerFresh : c.timerActive = true → c.timerFires = 0
  evValid : ∀ ev ∈ c.queue, evTask ev < c.tasks.length
  wt : weight c = total

end RmRf

namespace RmRf

theorem lt_of_getElem?_eq_some {α : Type} {l : List α} {i : Nat} {a : α}
    (h : l[i]? = some a) : i < l.length := by
  by_contra hge
  rw [List.getElem?_eq_none (Nat.le_of_not_lt hge)] at h
  cases h

theorem check_no_children_pos {c : Config} {t : Nat} {k : Task}
    (hk : c.tasks[t]? = some k) (hc : k.pending = 0 ∧ k.haveMore = false) :
    check_no_children t c =
      { c with
        tasks := c.tasks.set t ({ k with dirDeleteIssued := k.dirDeleteIssued + 1 }),
        queue := c.queue ++ [.dirDelDone t],
        issues := c.issues ++ [⟨.dirDelete, k.cancellable, none⟩] } := by
  unfold check_no_children
  rw [hk]
  simp only [if_pos hc]

theorem check_no_children_neg {c : Config} {t : Nat} {k : Task}
    (hk : c.tasks[t]? = some k) (hc : ¬(k.pending = 0 ∧ k.haveMore = false)) :
    check_no_children t c = c := by
  unfold check_no_children
  rw [hk]
  simp only [if_neg hc]

theorem decrement_and_check_eq {c : Config} {t : Nat} {k : Task}
    (hk : c.tasks[t]? = some k) :
    decrement_and_check t c =
      check_no_children t
        ({ c with tasks := c.tasks.set t ({ k with pending := k.pending - 1, decrs := k.decrs + 1 }) }) := by
  unfold decrement_and_check
  rw [hk]

theorem decrement_check_pos_eq {c : Config} {t : Nat} {k : Task}
    (hk : c.tasks[t]? = some k)
    (hc : k.pending - 1 = 0 ∧ k.haveMore = false) :
    decrement_and_check t c =
      { c with
        tasks := c.tasks.set t ({ k with pending := k.pending - 1, decrs := k.decrs + 1, dirDeleteIssued := k.dirDeleteIssued + 1 }),
        queue := c.queue ++ [.dirDelDone t],
        issues := c.issues ++ [⟨.dirDelete, k.cancellable, none⟩] } := by
  rw [decrement_and_check_eq hk]
  have hk1 : ({ c with tasks := c.tasks.set t ({ k with pending := k.pending - 1, decrs := k.decrs + 1 }) } : Config).tasks[t]? = some ({ k with pending := k.pending - 1, decrs := k.decrs + 1 }) := by
    simp only
    exact List.getElem?_set_eq_of_lt _ (lt_of_getElem?_eq_some hk)
  rw [check_no_children_pos hk1 (by simpa using hc)]
  simp [List.set_set]

theorem decrement_check_neg_eq {c : Config} {t : Nat} {k : Task}
    (hk : c.tasks[t]? = some k)
    (hc : ¬(k.pending - 1 = 0 ∧ k.haveMore = false)) :
    decrement_and_check t c =
      { c with
        tasks := c.tasks.set t ({ k with pending := k.pending - 1, decrs := k.decrs + 1 }) } := by
  rw [decrement_and_check_eq hk]
  have hk1 : ({ c with tasks := c.tasks.set t ({ k with pending := k.pending - 1, decrs := k.decrs + 1 }) } : Config).tasks[t]? = some ({ k with pending := k.pending - 1, decrs := k.decrs + 1 }) := by
    simp only
    exact List.getElem?_set_eq_of_lt _ (lt_of_getElem?_eq_some hk)
  rw [check_no_children_neg hk1 (by simpa using hc)]

end RmRf

namespace RmRf

theorem decrement_and_check_inv {total : Nat} {tok : Option Nat} {t : Nat}
    {c : Config} (h : InvP total tok t c) :
    Inv total tok (decrement_and_check t c) := by
  obtain ⟨k, hk⟩ := exists_task_of_lt h.tlen
  have ht1 := h.task t k hk
  have hobl := ht1.oblig
  rw [if_pos rfl] at hobl
  have hpend := ht1.pendEq
  have hpge : 1 ≤ k.pending := by rw [hpend]; omega
  have hiss0 : k.dirDeleteIssued = 0 := by
    have h1 := ht1.issuedIff
    have h2 := ht1.issuedLe
    by_contra hne
    have h3 : k.dirDeleteIssued = 1 := by omega
    have h4 := (h1.mp h3).1
    omega
  have hddz : c.queue.countP (isDirDel t) = 0 ∧ k.dirDeleteSucceeded = 0 := by
    have := ht1.dirDelEq
    omega
  by_cases hcond : k.pending - 1 = 0 ∧ k.haveMore = false
  · -- the decrement reached zero with the listing exhausted: the
    -- directory delete is issued now
    have hexh : k.exhausted = true := by
      rcases ht1.moreEx hcond.2 with h0 | h1
      · omega
      · exact h1
    have hrem : k.enumRemaining = [] := (ht1.exhRem hexh).1
    rw [decrement_check_pos_eq hk hcond]
    have hlive : ∀ i, (c.tasks.set t ({ k with pending := k.pending - 1, decrs := k.decrs + 1, dirDeleteIssued := k.dirDeleteIssued + 1 })).countP (isLiveChild i) = c.tasks.countP (isLiveChild i) := by
      intro i
      exact countP_set_congr _ _ hk (by simp [isLiveChild])
    refine ⟨?_, ?_, ?_, ?_, ?_, h.dispOk, h.timerLe, h.timerFresh, ?_, ?_⟩
    · simpa using h.tasksNe
    · intro i k₂ hi
      simp only at hi
      rcases getElem?_set_cases hi with ⟨hit, hkv, _⟩ | ⟨hit, hiold⟩
      · subst hit
        subst hkv
        refine ⟨ht1.originDir, ?_, ?_, ?_, ?_, ?_, ?_, ?_, ?_, ?_, ?_, ?_, ?_⟩
        · have hdrv := ht1.driver
          rw [hexh] at hdrv
          simp only [if_true] at hdrv
          simp only [List.countP_append]
          simp [List.countP_cons, isDriver, hdrv, hexh]
        · intro _
          simp [hrem, (ht1.exhRem hexh).2]
        · intro _
          right
          simpa using hexh
        · simp
          omega
        · simp only [List.countP_append, hlive]
          simp [List.countP_cons, isFileDel]
          omega
        · simp [hiss0]
        · simp [hexh]
          omega
        · simp only [List.countP_append]
          simp [List.countP_cons, isDirDel, hiss0, hddz.1, hddz.2]
        · simpa using ht1.sinkEq
        · simpa using ht1.cancelEq
        · simpa using fun p hp => ht1.parentLt p hp
        · simpa using fun hp => ht1.parentRoot hp
      · have h0 := h.task i k₂ hiold
        rw [if_neg hit] at h0
        have hne : (t == i) = false := by
          simp [Ne.symm hit]
        refine ⟨h0.originDir, ?_, h0.exhRem, h0.moreEx, h0.pendEq, ?_,
          h0.issuedLe, h0.issuedIff, ?_, h0.sinkEq, h0.cancelEq,
          h0.parentLt, h0.parentRoot⟩
        · have := h0.driver
          simp only [List.countP_append]
          simpa [List.countP_cons, isDriver] using this
        · have := h0.oblig
          simp only [List.countP_append, hlive]
          simp only [Nat.add_zero] at this
          simp [List.countP_cons, isFileDel, hne]
          omega
        · have := h0.dirDelEq
          simp only [List.countP_append]
          simp [List.countP_cons, isDirDel, hne]
          omega
    · intro r hr
      simp only at hr
      rcases getElem?_set_cases hr with ⟨hit, hkv, _⟩ | ⟨_, hiold⟩
      · subst hkv
        have hx := h.rootIff k (by rw [hit]; exact hk)
        simpa using hx
      · exact h.rootIff r hiold
    · intro is his
      simp only [List.mem_append, List.mem_singleton] at his
      rcases his with his | his
      · exact h.issueTok is his
      · subst his
        simpa [siteTok] using ht1.cancelEq
    · intro is his
      simp only [List.mem_append, List.mem_singleton] at his
      rcases his with his | his
      · exact h.issueFlags is his
      · subst his
        simp [siteFlags]
    · intro ev hev
      simp only [List.mem_append, List.mem_singleton] at hev
      rcases hev with hev | hev
      · simpa using h.evValid ev hev
      · subst hev
        simpa [evTask] using h.tlen
    · have hw := h.wt
      have hsum := sum_map_set ({ k with pending := k.pending - 1, decrs := k.decrs + 1, dirDeleteIssued := k.dirDeleteIssued + 1 }) taskW hk
      have htw : taskW ({ k with pending := k.pending - 1, decrs := k.decrs + 1, dirDeleteIssued := k.dirDeleteIssued + 1 }) = taskW k - 1 ∧ 1 ≤ taskW k := by
        simp [taskW, hiss0, hrem, totalList]
      simp only [weight, List.map_append, List.sum_append, List.map_cons,
        List.sum_cons, List.map_nil, List.sum_nil, evW] at hw ⊢
      omega
  · -- not yet: only the decrement happens
    rw [decrement_check_neg_eq hk hcond]
    have hlive : ∀ i, (c.tasks.set t ({ k with pending := k.pending - 1, decrs := k.decrs + 1 })).countP (isLiveChild i) = c.tasks.countP (isLiveChild i) := by
      intro i
      exact countP_set_congr _ _ hk (by simp [isLiveChild])
    refine ⟨?_, ?_, ?_, h.issueTok, h.issueFlags, h.dispOk, h.timerLe,
      h.timerFresh, ?_, ?_⟩
    · simpa using h.tasksNe
    · intro i k₂ hi
      simp only at hi
      rcases getElem?_set_cases hi with ⟨hit, hkv, _⟩ | ⟨hit, hiold⟩
      · subst hit
        subst hkv
        refine ⟨ht1.originDir, ?_, ?_, ?_, ?_, ?_, ?_, ?_, ?_, ?_, ?_, ?_, ?_⟩
        · simpa using ht1.driver
        · intro hx
          simpa using ht1.exhRem (by simpa using hx)
        · intro hx
          simpa using ht1.moreEx (by simpa using hx)
        · simp
          omega
        · simp only [hlive]
          simp
          omega
        · simpa using ht1.issuedLe
        · constructor
          · intro hx
            have hx1 : k.dirDeleteIssued = 1 := hx
            omega
          · intro hx
            exfalso
            have hx0 : k.pending - 1 = 0 := hx.1
            have hxe : k.exhausted = true := hx.2
            exact hcond ⟨hx0, (ht1.exhRem hxe).2⟩
        · simpa using ht1.dirDelEq
        · simpa using ht1.sinkEq
        · simpa using ht1.cancelEq
        · simpa using fun p hp => ht1.parentLt p hp
        · simpa using fun hp => ht1.parentRoot hp
      · have h0 := h.task i k₂ hiold
        rw [if_neg hit] at h0
        refine ⟨h0.originDir, h0.driver, h0.exhRem, h0.moreEx, h0.pendEq, ?_,
          h0.issuedLe, h0.issuedIff, h0.dirDelEq, h0.sinkEq, h0.cancelEq,
          h0.parentLt, h0.parentRoot⟩
        have := h0.oblig
        simp only [hlive]
        omega
    · intro r hr
      simp only at hr
      rcases getElem?_set_cases hr with ⟨hit, hkv, _⟩ | ⟨_, hiold⟩
      · subst hkv
        have hx := h.rootIff k (by rw [hit]; exact hk)
        simpa using hx
      · exact h.rootIff r hiold
    · intro ev hev
      simpa using h.evValid ev hev
    · have hw := h.wt
      have hsum := sum_map_set ({ k with pending := k.pending - 1, decrs := k.decrs + 1 }) taskW hk
      have htw : taskW ({ k with pending := k.pending - 1, decrs := k.decrs + 1 }) = taskW k := by
        simp [taskW]
      simp only [weight] at hw ⊢
      omega

end RmRf

namespace RmRf

theorem file_inv {total tok c t q₁ q₂} (h : Inv total tok c)
    (hq : c.queue = q₁ ++ Ev.fileDelDone t :: q₂) :
    Inv total tok (on_file_deleted t q₁ q₂ c) := by
  have htv : t < c.tasks.length := by
    have := h.evValid (Ev.fileDelDone t) (by rw [hq]; simp)
    simpa [evTask] using this
  unfold on_file_deleted
  apply decrement_and_check_inv
  refine ⟨by simpa using h.tasksNe, by simpa using htv, ?_, ?_,
    h.issueTok, h.issueFlags, h.dispOk, h.timerLe, h.timerFresh, ?_, ?_⟩
  · intro i k₂ hi
    simp only at hi
    have h0 := h.task i k₂ hi
    by_cases hit : i = t
    · subst hit
      rw [if_pos rfl]
      refine ⟨h0.originDir, ?_, h0.exhRem, h0.moreEx, h0.pendEq, ?_,
        h0.issuedLe, h0.issuedIff, ?_, h0.sinkEq, h0.cancelEq,
        h0.parentLt, h0.parentRoot⟩
      · have := h0.driver
        rw [hq] at this
        simpa [List.countP_append, List.countP_cons, isDriver] using this
      · have := h0.oblig
        rw [hq] at this
        simp [List.countP_append, List.countP_cons, isFileDel] at this ⊢
        omega
      · have := h0.dirDelEq
        rw [hq] at this
        simpa [List.countP_append, List.countP_cons, isDirDel] using this
    · rw [if_neg hit]
      have hne : (t == i) = false := by simp [Ne.symm hit]
      refine ⟨h0.originDir, ?_, h0.exhRem, h0.moreEx, h0.pendEq, ?_,
        h0.issuedLe, h0.issuedIff, ?_, h0.sinkEq, h0.cancelEq,
        h0.parentLt, h0.parentRoot⟩
      · have := h0.driver
        rw [hq] at this
        simpa [List.countP_append, List.countP_cons, isDriver, hne] using this
      · have := h0.oblig
        rw [hq] at this
        simp [List.countP_append, List.countP_cons, isFileDel, hne] at this ⊢
        omega
      · have := h0.dirDelEq
        rw [hq] at this
        simpa [List.countP_append, List.countP_cons, isDirDel, hne] using this
  · intro r hr
    simp only at hr
    exact h.rootIff r hr
  · intro ev hev
    simp only at hev
    exact h.evValid ev (by rw [hq]; simp only [List.mem_append] at hev ⊢; tauto)
  · have hw := h.wt
    simp only [weight, hq, List.map_append, List.sum_append, List.map_cons,
      List.sum_cons, List.map_nil, List.sum_nil, evW] at hw ⊢
    omega

end RmRf

namespace RmRf

theorem on_end_eq_parent {c : Config} {t p : Nat} {k : Task} {q₁ q₂ : List Ev}
    (hk : c.tasks[t]? = some k) (hp : k.parent = some p) :
    on_end_directory_deleted t q₁ q₂ c =
      decrement_and_check p
        ({ c with
           queue := q₁ ++ q₂,
           filesDeleted := guint_incr c.filesDeleted,
           deletions := c.deletions + 1,
           tasks := c.tasks.set t ({ k with dirDeleteSucceeded := k.dirDeleteSucceeded + 1, sinkInvoked := k.sinkInvoked + 1 }) }) := by
  unfold on_end_directory_deleted
  rw [hk]
  simp only [hp]

theorem on_end_eq_root {c : Config} {t : Nat} {k : Task} {q₁ q₂ : List Ev}
    (hk : c.tasks[t]? = some k) (hp : k.parent = none) :
    on_end_directory_deleted t q₁ q₂ c =
      { c with
        queue := q₁ ++ q₂,
        filesDeleted := guint_incr c.filesDeleted,
        deletions := c.deletions + 1,
        tasks := c.tasks.set t ({ k with dirDeleteSucceeded := k.dirDeleteSucceeded + 1, sinkInvoked := k.sinkInvoked + 1 }),
        rootDone := true } := by
  unfold on_end_directory_deleted
  rw [hk]
  simp only [hp]
  unfold on_rm_finished
  rfl

end RmRf

namespace RmRf

@[simp] theorem isDriver_enum (i j : Nat) : isDriver i (Ev.enumDone j) = (j == i) := rfl

@[simp] theorem isDriver_next (i j : Nat) : isDriver i (Ev.nextFilesDone j) = (j == i) := rfl

@[simp] theorem isDriver_file (i j : Nat) : isDriver i (Ev.fileDelDone j) = false := rfl

@[simp] theorem isDriver_dir (i j : Nat) : isDriver i (Ev.dirDelDone j) = false := rfl

@[simp] theorem isFileDel_enum (i j : Nat) : isFileDel i (Ev.enumDone j) = false := rfl

@[simp] theorem isFileDel_next (i j : Nat) : isFileDel i (Ev.nextFilesDone j) = false := rfl

@[simp] theorem isFileDel_file (i j : Nat) : isFileDel i (Ev.fileDelDone j) = (j == i) := rfl

@[simp] theorem isFileDel_dir (i j : Nat) : isFileDel i (Ev.dirDelDone j) = false := rfl

@[simp] theorem isDirDel_enum (i j : Nat) : isDirDel i (Ev.enumDone j) = false := rfl

@[simp] theorem isDirDel_next (i j : Nat) : isDirDel i (Ev.nextFilesDone j) = false := rfl

@[simp] theorem isDirDel_file (i j : Nat) : isDirDel i (Ev.fileDelDone j) = false := rfl

@[simp] theorem isDirDel_dir (i j : Nat) : isDirDel i (Ev.dirDelDone j) = (j == i) := rfl

@[simp] theorem evW_enum (j : Nat) : evW (Ev.enumDone j) = 0 := rfl

@[simp] theorem evW_next (j : Nat) : evW (Ev.nextFilesDone j) = 0 := rfl

@[simp] theorem evW_file (j : Nat) : evW (Ev.fileDelDone j) = 1 := rfl

@[simp] theorem evW_dir (j : Nat) : evW (Ev.dirDelDone j) = 1 := rfl

theorem countP_mid {α : Type} (p : α → Bool) (q₁ q₂ : List α) (e : α) :
    (q₁ ++ e :: q₂).countP p
      = (q₁ ++ q₂).countP p + (if p e then 1 else 0) := by
  simp only [List.countP_append, List.countP_cons]
  omega

end RmRf

namespace RmRf

theorem dir_inv {total tok c t q₁ q₂} (h : Inv total tok c)
    (hq : c.queue = q₁ ++ Ev.dirDelDone t :: q₂) :
    Inv total tok (on_end_directory_deleted t q₁ q₂ c) := by
  have htv : t < c.tasks.length := by
    have := h.evValid (Ev.dirDelDone t) (by rw [hq]; simp)
    simpa [evTask] using this
  obtain ⟨k, hk⟩ := exists_task_of_lt htv
  have ht := h.task t k hk
  have eDrv : ∀ i, (q₁ ++ q₂).countP (isDriver i)
      = c.queue.countP (isDriver i) := by
    intro i
    rw [hq, countP_mid]
    simp
  have eFD : ∀ i, (q₁ ++ q₂).countP (isFileDel i)
      = c.queue.countP (isFileDel i) := by
    intro i
    rw [hq, countP_mid]
    simp
  have eDD : ∀ i, i ≠ t → (q₁ ++ q₂).countP (isDirDel i)
      = c.queue.countP (isDirDel i) := by
    intro i hne
    rw [hq, countP_mid]
    simp [Ne.symm hne]
  have eDDt : (q₁ ++ q₂).countP (isDirDel t) + 1
      = c.queue.countP (isDirDel t) := by
    rw [hq, countP_mid]
    simp
  have hiss1 : k.dirDeleteIssued = 1 := by
    have h1 := ht.dirDelEq
    have h2 := ht.issuedLe
    omega
  have hsucc0 : k.dirDeleteSucceeded = 0 := by
    have h1 := ht.dirDelEq
    have h2 := ht.issuedLe
    omega
  have hsink0 : k.sinkInvoked = 0 := by rw [ht.sinkEq]; exact hsucc0
  have hcddq : (q₁ ++ q₂).countP (isDirDel t) = 0 := by
    have h1 := ht.dirDelEq
    omega
  have hpend0 : k.pending = 0 := (ht.issuedIff.mp hiss1).1
  have hexh : k.exhausted = true := (ht.issuedIff.mp hiss1).2
  have hrem : k.enumRemaining = [] := (ht.exhRem hexh).1
  have hmoreF : k.haveMore = false := (ht.exhRem hexh).2
  have hdrv0 : c.queue.countP (isDriver t) = 0 := by
    have := ht.driver
    rw [hexh] at this
    simpa using this
  have hid : k.incrs = k.decrs := by
    have h1 := ht.pendEq
    rw [hpend0] at h1
    omega
  have hcfd0 : c.queue.countP (isFileDel t) = 0 := by
    have h1 := ht.oblig
    omega
  have hclive0 : c.tasks.countP (isLiveChild t) = 0 := by
    have h1 := ht.oblig
    omega
  rcases hpar : k.parent with _ | p
  · -- root task: quit the main loop
    have ht0 : t = 0 := ht.parentRoot hpar
    subst ht0
    rw [on_end_eq_root hk hpar]
    have hlive : ∀ i, (c.tasks.set 0 ({ k with dirDeleteSucceeded := k.dirDeleteSucceeded + 1, sinkInvoked := k.sinkInvoked + 1 })).countP (isLiveChild i) = c.tasks.countP (isLiveChild i) := by
      intro i
      exact countP_set_congr _ _ hk (by simp [isLiveChild, hpar])
    refine ⟨by simpa using h.tasksNe, ?_, ?_, h.issueTok, h.issueFlags,
      h.dispOk, h.timerLe, h.timerFresh, ?_, ?_⟩
    · intro i k₂ hi
      simp only at hi
      rcases getElem?_set_cases hi with ⟨hit, hkv, _⟩ | ⟨hit, hiold⟩
      · subst hit
        subst hkv
        refine ⟨ht.originDir, ?_, ?_, ?_, ?_, ?_, ?_, ?_, ?_, ?_, ?_, ?_, ?_⟩
        · rw [eDrv 0]
          simpa [hexh] using hdrv0
        · intro _
          simp [hrem, hmoreF]
        · intro _
          right
          simpa using hexh
        · simpa using ht.pendEq
        · simp only
          rw [eFD 0, hlive 0]
          omega
        · simpa using ht.issuedLe
        · simp [hiss1, hpend0, hexh]
        · rw [hcddq]
          simp [hiss1, hsucc0]
        · simp [hsink0, hsucc0]
        · simpa using ht.cancelEq
        · simpa using fun p hp => ht.parentLt p hp
        · intro _
          rfl
      · have h0 := h.task i k₂ hiold
        have hne0 : i ≠ 0 := hit
        refine ⟨h0.originDir, ?_, h0.exhRem, h0.moreEx, h0.pendEq, ?_,
          h0.issuedLe, h0.issuedIff, ?_, h0.sinkEq, h0.cancelEq,
          h0.parentLt, h0.parentRoot⟩
        · rw [eDrv i]
          exact h0.driver
        · rw [eFD i, hlive i]
          exact h0.oblig
        · rw [eDD i hne0]
          exact h0.dirDelEq
    · intro r hr
      simp only at hr
      rcases getElem?_set_cases hr with ⟨_, hkv, _⟩ | ⟨hit, _⟩
      · subst hkv
        simp [hsink0]
      · exact absurd rfl hit
    · intro ev hev
      simp only at hev
      simp only [List.length_set]
      exact h.evValid ev (by rw [hq]; simp only [List.mem_append] at hev ⊢; tauto)
    · have hw := h.wt
      have hsum := sum_map_set ({ k with dirDeleteSucceeded := k.dirDeleteSucceeded + 1, sinkInvoked := k.sinkInvoked + 1 }) taskW hk
      have htw : taskW ({ k with dirDeleteSucceeded := k.dirDeleteSucceeded + 1, sinkInvoked := k.sinkInvoked + 1 }) = taskW k := by
        simp [taskW]
      simp only [weight, hq, List.map_append, List.sum_append, List.map_cons,
        List.sum_cons, List.map_nil, List.sum_nil, evW_dir] at hw ⊢
      omega
  · -- child task: completing the simple result runs on_rm_rf_complete
    -- on the parent context
    have hpt : p < t := ht.parentLt p hpar
    have hnept : t ≠ p := by omega
    rw [on_end_eq_parent hk hpar]
    apply decrement_and_check_inv
    have hlivek : ∀ i, i ≠ p → (c.tasks.set t ({ k with dirDeleteSucceeded := k.dirDeleteSucceeded + 1, sinkInvoked := k.sinkInvoked + 1 })).countP (isLiveChild i) = c.tasks.countP (isLiveChild i) := by
      intro i hip
      refine countP_set_congr _ _ hk ?_
      simp [isLiveChild, hpar]
      intro he
      exact absurd he.symm hip
    have hlivep : (c.tasks.set t ({ k with dirDeleteSucceeded := k.dirDeleteSucceeded + 1, sinkInvoked := k.sinkInvoked + 1 })).countP (isLiveChild p) + 1 = c.tasks.countP (isLiveChild p) := by
      have hcnt := countP_set ({ k with dirDeleteSucceeded := k.dirDeleteSucceeded + 1, sinkInvoked := k.sinkInvoked + 1 }) (isLiveChild p) hk
      have hvk : isLiveChild p k = true := by
        simp [isLiveChild, hpar, hsink0]
      have hvk2 : isLiveChild p ({ k with dirDeleteSucceeded := k.dirDeleteSucceeded + 1, sinkInvoked := k.sinkInvoked + 1 }) = false := by
        simp [isLiveChild]
      rw [hvk, hvk2] at hcnt
      simpa using hcnt
    refine ⟨by simpa using h.tasksNe, by simp only [List.length_set]; omega,
      ?_, ?_, h.issueTok, h.issueFlags, h.dispOk, h.timerLe, h.timerFresh,
      ?_, ?_⟩
    · intro i k₂ hi
      simp only at hi
      rcases getElem?_set_cases hi with ⟨rfl, rfl, _⟩ | ⟨hit, hiold⟩
      · rw [if_neg hnept]
        refine ⟨ht.originDir, ?_, ?_, ?_, ?_, ?_, ?_, ?_, ?_, ?_, ?_, ?_, ?_⟩
        · rw [eDrv i]
          simpa [hexh] using hdrv0
        · intro _
          simp [hrem, hmoreF]
        · intro _
          right
          simpa using hexh
        · simpa using ht.pendEq
        · simp only
          rw [eFD i, hlivek i hnept]
          omega
        · simpa using ht.issuedLe
        · simp [hiss1, hpend0, hexh]
        · rw [hcddq]
          simp [hiss1, hsucc0]
        · simp [hsink0, hsucc0]
        · simpa using ht.cancelEq
        · simpa using fun p2 hp2 => ht.parentLt p2 hp2
        · intro hx
          exact absurd (hpar ▸ hx) (by simp)
      · have h0 := h.task i k₂ hiold
        by_cases hip : i = p
        · subst hip
          rw [if_pos rfl]
          refine ⟨h0.originDir, ?_, h0.exhRem, h0.moreEx, h0.pendEq, ?_,
            h0.issuedLe, h0.issuedIff, ?_, h0.sinkEq, h0.cancelEq,
            h0.parentLt, h0.parentRoot⟩
          · rw [eDrv i]
            exact h0.driver
          · have hob := h0.oblig
            have hlp := hlivep
            simp only
            rw [eFD i]
            omega
          · rw [eDD i (by omega)]
            exact h0.dirDelEq
        · rw [if_neg hip]
          refine ⟨h0.originDir, ?_, h0.exhRem, h0.moreEx, h0.pendEq, ?_,
            h0.issuedLe, h0.issuedIff, ?_, h0.sinkEq, h0.cancelEq,
            h0.parentLt, h0.parentRoot⟩
          · rw [eDrv i]
            exact h0.driver
          · rw [eFD i, hlivek i hip]
            exact h0.oblig
          · rw [eDD i hit]
            exact h0.dirDelEq
    · intro r hr
      simp only at hr
      rcases getElem?_set_cases hr with ⟨hit, hkv, _⟩ | ⟨hit, hiold⟩
      · exfalso
        omega
      · exact h.rootIff r hiold
    · intro ev hev
      simp only at hev
      simp only [List.length_set]
      exact h.evValid ev (by rw [hq]; simp only [List.mem_append] at hev ⊢; tauto)
    · have hw := h.wt
      have hsum := sum_map_set ({ k with dirDeleteSucceeded := k.dirDeleteSucceeded + 1, sinkInvoked := k.sinkInvoked + 1 }) taskW hk
      have htw : taskW ({ k with dirDeleteSucceeded := k.dirDeleteSucceeded + 1, sinkInvoked := k.sinkInvoked + 1 }) = taskW k := by
        simp [taskW]
      simp only [weight, hq, List.map_append, List.sum_append, List.map_cons,
        List.sum_cons, List.map_nil, List.sum_nil, evW_dir] at hw ⊢
      omega

end RmRf

namespace RmRf

theorem totalEntries_of_leaf {e : FSTree} (he : ¬fileType e = GFileType.directory) :
    totalEntries e = 1 := by
  cases e <;> simp [fileType] at he ⊢ <;> rfl

theorem eq_dir_of_fileType {e : FSTree} (he : fileType e = GFileType.directory) :
    e = FSTree.dir (entryChildren e) := by
  cases e <;> simp [fileType, entryChildren] at he ⊢

theorem totalEntries_dir (cs : List FSTree) :
    totalEntries (FSTree.dir cs) = 1 + totalList cs := rfl

theorem isDriver_task {n : Nat} {ev : Ev} (h : isDriver n ev = true) :
    evTask ev = n := by
  cases ev <;> simp_all [evTask]

theorem isFileDel_task {n : Nat} {ev : Ev} (h : isFileDel n ev = true) :
    evTask ev = n := by
  cases ev <;> simp_all [evTask]

theorem isDirDel_task {n : Nat} {ev : Ev} (h : isDirDel n ev = true) :
    evTask ev = n := by
  cases ev <;> simp_all [evTask]

theorem countP_task_zero {q : List Ev} {n : Nat}
    (hv : ∀ ev ∈ q, evTask ev < n) (p : Ev → Bool)
    (hp : ∀ ev, p ev = true → evTask ev = n) : q.countP p = 0 := by
  rw [List.countP_eq_zero]
  intro ev hev
  intro hx
  have := hp ev hx
  have := hv ev hev
  omega

theorem countLive_ge {ts : List Task} {n : Nat} (hn : ts.length ≤ n)
    (hp : ∀ (i : Nat) (k : Task), ts[i]? = some k → ∀ p, k.parent = some p → p < i) :
    ts.countP (isLiveChild n) = 0 := by
  rw [List.countP_eq_zero]
  intro k hk hx
  obtain ⟨i, hi⟩ := List.getElem?_of_mem hk
  have hpar : k.parent = some n := by
    simp [isLiveChild] at hx
    exact hx.1
  have := hp i k hi n hpar
  have : i < ts.length := lt_of_getElem?_eq_some hi
  omega

/-- The loop invariant of the per-entry dispatch loop of
`on_next_files` running on task `t`: the plain invariant holds, task
`t` is mid-listing (`have_more_files` set, not exhausted), and the
deletion-accounting weight is short by exactly the entries still to
be dispatched in this batch (`rest`). -/
structure InvL (total : Nat) (tok : Option Nat) (t : Nat)
    (rest : List FSTree) (c : Config) : Prop where
  tasksNe : 0 < c.tasks.length
  tlen : t < c.tasks.length
  task : ∀ i k, c.tasks[i]? = some k → TInv c.queue c.tasks tok 0 i k
  texh : ∀ k, c.tasks[t]? = some k → k.exhausted = false
  tmore : ∀ k, c.tasks[t]? = some k → k.haveMore = true
  rootIff : ∀ r, c.tasks[0]? = some r → (c.rootDone = true ↔ r.sinkInvoked = 1)
  issueTok : ∀ is ∈ c.issues, is.tok = siteTok tok is.site
  issueFlags : ∀ is ∈ c.issues, is.flags = siteFlags is.site
  dispOk : ∀ d ∈ c.dispatches,
      d.recursed = decide (fileType d.entry = GFileType.directory)
  timerLe : c.timerFires ≤ 1
  timerFresh : c.timerActive = true → c.timerFires = 0
  evValid : ∀ ev ∈ c.queue, evTask ev < c.tasks.length
  wt : weight c + totalList rest = total

end RmRf

namespace RmRf

theorem dispatchOne_eq_leaf {c : Config} {t : Nat} {k : Task} {e : FSTree}
    (hk : c.tasks[t]? = some k) (he : ¬fileType e = GFileType.directory) :
    dispatchOne t e c =
      { c with
        tasks := c.tasks.set t ({ k with pending := k.pending + 1, incrs := k.incrs + 1 }),
        queue := c.queue ++ [.fileDelDone t],
        issues := c.issues ++ [⟨.leafDelete, none, none⟩],
        dispatches := c.dispatches ++ [⟨e, false⟩] } := by
  unfold dispatchOne
  rw [hk]
  simp only [if_neg he]

theorem dispatchOne_eq_dir {c : Config} {t : Nat} {k : Task} {e : FSTree}
    (hk : c.tasks[t]? = some k) (he : fileType e = GFileType.directory) :
    dispatchOne t e c =
      { c with
        tasks := c.tasks.set t ({ k with pending := k.pending + 1, incrs := k.incrs + 1 })
          ++ [{ origin := e, sub := entryChildren e,
                enumRemaining := entryChildren e, pending := 0,
                haveMore := false, cancellable := k.cancellable,
                parent := some t, exhausted := false, dirDeleteIssued := 0,
                dirDeleteSucceeded := 0, sinkInvoked := 0, incrs := 0,
                decrs := 0 }],
        queue := c.queue ++ [.enumDone c.tasks.length],
        issues := c.issues ++ [⟨.enumerate, k.cancellable, some enumerateFlags⟩],
        dispatches := c.dispatches ++ [⟨e, true⟩] } := by
  unfold dispatchOne
  rw [hk]
  simp only [if_pos he]
  unfold rm_rf_async
  simp [List.length_set]

end RmRf

namespace RmRf

theorem dispatchOne_invL {total : Nat} {tok : Option Nat} {t : Nat}
    {e : FSTree} {rest : List FSTree} {c : Config}
    (h : InvL total tok t (e :: rest) c) :
    InvL total tok t rest (dispatchOne t e c) := by
  obtain ⟨k, hk⟩ := exists_task_of_lt h.tlen
  have ht := h.task t k hk
  have hexh := h.texh k hk
  have hmore := h.tmore k hk
  have hiss0 : k.dirDeleteIssued = 0 := by
    have h1 := ht.issuedIff
    have h2 := ht.issuedLe
    by_contra hne
    have h3 : k.dirDeleteIssued = 1 := by omega
    have h4 := (h1.mp h3).2
    rw [hexh] at h4
    cases h4
  by_cases he : fileType e = GFileType.directory
  · -- directory entry: rm_rf_async creates a child task
    rw [dispatchOne_eq_dir hk he]
    have hlive : ∀ j, (c.tasks.set t ({ k with pending := k.pending + 1, incrs := k.incrs + 1 })).countP (isLiveChild j) = c.tasks.countP (isLiveChild j) := by
      intro j
      exact countP_set_congr _ _ hk (by simp [isLiveChild])
    have hplt : ∀ (i : Nat) (k₂ : Task), (c.tasks.set t ({ k with pending := k.pending + 1, incrs := k.incrs + 1 }))[i]? = some k₂ → ∀ p, k₂.parent = some p → p < i := by
      intro i k₂ hi p hp
      rcases getElem?_set_cases hi with ⟨hit, hkv, _⟩ | ⟨_, hiold⟩
      · subst hkv
        have := ht.parentLt p (by simpa using hp)
        omega
      · exact (h.task i k₂ hiold).parentLt p hp
    have hdz : c.queue.countP (isDriver c.tasks.length) = 0 :=
      countP_task_zero h.evValid _ (fun ev hx => isDriver_task hx)
    have hfz : c.queue.countP (isFileDel c.tasks.length) = 0 :=
      countP_task_zero h.evValid _ (fun ev hx => isFileDel_task hx)
    have hddz : c.queue.countP (isDirDel c.tasks.length) = 0 :=
      countP_task_zero h.evValid _ (fun ev hx => isDirDel_task hx)
    have hlz : (c.tasks.set t ({ k with pending := k.pending + 1, incrs := k.incrs + 1 })).countP (isLiveChild c.tasks.length) = 0 :=
      countLive_ge (by simp) hplt
    have eQ : ∀ (p : Ev → Bool), (c.queue ++ [Ev.enumDone c.tasks.length]).countP p = c.queue.countP p + (if p (Ev.enumDone c.tasks.length) then 1 else 0) := by
      intro p
      simp [List.countP_append, List.countP_cons]
    have eT : ∀ (pq : Task → Bool) (nT : Task), ((c.tasks.set t ({ k with pending := k.pending + 1, incrs := k.incrs + 1 })) ++ [nT]).countP pq = (c.tasks.set t ({ k with pending := k.pending + 1, incrs := k.incrs + 1 })).countP pq + (if pq nT then 1 else 0) := by
      intro pq nT
      simp [List.countP_append, List.countP_cons]
    refine ⟨?_, ?_, ?_, ?_, ?_, ?_, ?_, ?_, ?_, h.timerLe, h.timerFresh, ?_, ?_⟩
    · simp
    · have := h.tlen
      simp only [List.length_append, List.length_set, List.length_cons,
        List.length_nil]
      omega
    · intro i k₂ hi
      simp only at hi
      rcases getElem?_append_one hi with hiset | ⟨hiL, hkv⟩
      · rcases getElem?_set_cases hiset with ⟨hit, hkv, _⟩ | ⟨hit, hiold⟩
        · -- the dispatching task itself
          subst hkv
          subst hit
          have hLt : (c.tasks.length == i) = false := by
            have h1 := lt_of_getElem?_eq_some hk
            simp
            omega
          refine ⟨ht.originDir, ?_, ?_, ?_, ?_, ?_, ?_, ?_, ?_, ?_, ?_, ?_, ?_⟩
          · rw [eQ]
            simp only [isDriver_enum, hLt]
            simpa [hexh] using ht.driver
          · intro hx
            simp only at hx
            rw [hexh] at hx
            cases hx
          · intro hx
            simp only at hx
            rw [hmore] at hx
            cases hx
          · have := ht.pendEq
            simp only
            omega
          · have hob := ht.oblig
            rw [eQ, eT]
            simp only [isFileDel_enum, if_false, hlive]
            have hnew : isLiveChild i ({ origin := e, sub := entryChildren e, enumRemaining := entryChildren e, pending := 0, haveMore := false, cancellable := k.cancellable, parent := some i, exhausted := false, dirDeleteIssued := 0, dirDeleteSucceeded := 0, sinkInvoked := 0, incrs := 0, decrs := 0 } : Task) = true := by
              simp [isLiveChild]
            rw [hnew]
            simp
            omega
          · simpa using ht.issuedLe
          · constructor
            · intro hx
              have hx1 : k.dirDeleteIssued = 1 := hx
              omega
            · intro hx
              have hx2 := hx.2
              simp only at hx2
              rw [hexh] at hx2
              cases hx2
          · rw [eQ]
            simp only [isDirDel_enum, if_false]
            simpa using ht.dirDelEq
          · simpa using ht.sinkEq
          · simpa using ht.cancelEq
          · simpa using fun p hp => ht.parentLt p hp
          · simpa using fun hp => ht.parentRoot hp
        · -- an unrelated existing task
          have h0 := h.task i k₂ hiold
          have hne : (t == i) = false := by simp [Ne.symm hit]
          have hiLt : (c.tasks.length == i) = false := by
            have h1 := lt_of_getElem?_eq_some hiold
            simp
            omega
          refine ⟨h0.originDir, ?_, h0.exhRem, h0.moreEx, h0.pendEq, ?_,
            h0.issuedLe, h0.issuedIff, ?_, h0.sinkEq, h0.cancelEq,
            h0.parentLt, h0.parentRoot⟩
          · rw [eQ]
            simp only [isDriver_enum, hiLt, if_false]
            simpa using h0.driver
          · have hob := h0.oblig
            rw [eQ, eT]
            have hnew : isLiveChild i ({ origin := e, sub := entryChildren e, enumRemaining := entryChildren e, pending := 0, haveMore := false, cancellable := k.cancellable, parent := some t, exhausted := false, dirDeleteIssued := 0, dirDeleteSucceeded := 0, sinkInvoked := 0, incrs := 0, decrs := 0 } : Task) = false := by
              simp [isLiveChild]
              intro hx
              exact absurd hx.symm hit
            rw [hnew, hlive]
            simp
            omega
          · rw [eQ]
            simp only [isDirDel_enum, if_false]
            simpa using h0.dirDelEq
      · -- the freshly created child task
        have hiL2 : i = c.tasks.length := by simpa using hiL
        subst hiL2
        subst hkv
        refine ⟨?_, ?_, ?_, ?_, ?_, ?_, ?_, ?_, ?_, ?_, ?_, ?_, ?_⟩
        · exact ⟨entryChildren e, by simpa using eq_dir_of_fileType he, rfl⟩
        · rw [eQ]
          simp [hdz]
        · intro hx
          exact Bool.noConfusion hx
        · intro _
          left
          rfl
        · simp
        · rw [eQ, eT]
          have hnew : isLiveChild c.tasks.length ({ origin := e, sub := entryChildren e, enumRemaining := entryChildren e, pending := 0, haveMore := false, cancellable := k.cancellable, parent := some t, exhausted := false, dirDeleteIssued := 0, dirDeleteSucceeded := 0, sinkInvoked := 0, incrs := 0, decrs := 0 } : Task) = false := by
            have h1 := h.tlen
            simp [isLiveChild]
            omega
          rw [hnew, hlz]
          simp [hfz]
        · simp
        · simp
        · rw [eQ]
          simp [hddz]
        · simp
        · simpa using ht.cancelEq
        · intro p hp
          simp only at hp
          have : p = t := by simpa using hp.symm
          subst this
          exact lt_of_getElem?_eq_some hk
        · intro hp
          exact Option.noConfusion hp
    · intro k₂ hk₂
      simp only at hk₂
      rw [List.getElem?_append_left (by simp only [List.length_set]; exact h.tlen)] at hk₂
      rw [List.getElem?_set_eq_of_lt _ h.tlen] at hk₂
      cases hk₂
      simpa using hexh
    · intro k₂ hk₂
      simp only at hk₂
      rw [List.getElem?_append_left (by simp only [List.length_set]; exact h.tlen)] at hk₂
      rw [List.getElem?_set_eq_of_lt _ h.tlen] at hk₂
      cases hk₂
      simpa using hmore
    · intro r hr
      simp only at hr
      rw [List.getElem?_append_left (by simp only [List.length_set]; exact lt_of_lt_of_le h.tasksNe (Nat.le_refl _) |>.trans_le (Nat.le_refl _) |> fun _ => h.tasksNe)] at hr
      rcases getElem?_set_cases hr with ⟨h0t, hkv, _⟩ | ⟨_, hiold⟩
      · subst hkv
        have hx := h.rootIff k (by rw [h0t]; exact hk)
        simpa using hx
      · exact h.rootIff r hiold
    · intro is his
      simp only [List.mem_append, List.mem_singleton] at his
      rcases his with his | his
      · exact h.issueTok is his
      · subst his
        simpa [siteTok] using ht.cancelEq
    · intro is his
      simp only [List.mem_append, List.mem_singleton] at his
      rcases his with his | his
      · exact h.issueFlags is his
      · subst his
        simp [siteFlags]
    · intro d hd
      simp only [List.mem_append, List.mem_singleton] at hd
      rcases hd with hd | hd
      · exact h.dispOk d hd
      · subst hd
        simp [he]
    · intro ev hev
      simp only [List.mem_append, List.mem_singleton] at hev
      simp only [List.length_append, List.length_set, List.length_cons,
        List.length_nil]
      rcases hev with hev | hev
      · have := h.evValid ev hev
        omega
      · subst hev
        simp [evTask]
    · have hw := h.wt
      have hsum := sum_map_set ({ k with pending := k.pending + 1, incrs := k.incrs + 1 }) taskW hk
      have htw : taskW ({ k with pending := k.pending + 1, incrs := k.incrs + 1 }) = taskW k := by
        simp [taskW]
      have hde : totalEntries e = 1 + totalList (entryChildren e) := by
        conv_lhs => rw [eq_dir_of_fileType he]
        exact totalEntries_dir (entryChildren e)
      simp [weight, totalList, taskW, hiss0] at hw hsum ⊢
      omega
  · -- leaf entry (file, symlink, special): delete directly
    rw [dispatchOne_eq_leaf hk he]
    have hlive : ∀ j, (c.tasks.set t ({ k with pending := k.pending + 1, incrs := k.incrs + 1 })).countP (isLiveChild j) = c.tasks.countP (isLiveChild j) := by
      intro j
      exact countP_set_congr _ _ hk (by simp [isLiveChild])
    have eQ : ∀ (p : Ev → Bool), (c.queue ++ [Ev.fileDelDone t]).countP p = c.queue.countP p + (if p (Ev.fileDelDone t) then 1 else 0) := by
      intro p
      simp [List.countP_append, List.countP_cons]
    refine ⟨?_, ?_, ?_, ?_, ?_, ?_, ?_, ?_, ?_, h.timerLe, h.timerFresh, ?_, ?_⟩
    · simpa using h.tasksNe
    · simpa using h.tlen
    · intro i k₂ hi
      simp only at hi
      rcases getElem?_set_cases hi with ⟨hit, hkv, _⟩ | ⟨hit, hiold⟩
      · subst hkv
        subst hit
        refine ⟨ht.originDir, ?_, ?_, ?_, ?_, ?_, ?_, ?_, ?_, ?_, ?_, ?_, ?_⟩
        · rw [eQ]
          simp only [isDriver_file, if_false]
          simpa [hexh] using ht.driver
        · intro hx
          simp only at hx
          rw [hexh] at hx
          cases hx
        · intro hx
          simp only at hx
          rw [hmore] at hx
          cases hx
        · have := ht.pendEq
          simp only
          omega
        · have hob := ht.oblig
          rw [eQ]
          simp only [isFileDel_file, hlive]
          simp
          omega
        · simpa using ht.issuedLe
        · constructor
          · intro hx
            have hx1 : k.dirDeleteIssued = 1 := hx
            omega
          · intro hx
            have hx2 := hx.2
            simp only at hx2
            rw [hexh] at hx2
            cases hx2
        · rw [eQ]
          simp only [isDirDel_file, if_false]
          simpa using ht.dirDelEq
        · simpa using ht.sinkEq
        · simpa using ht.cancelEq
        · simpa using fun p hp => ht.parentLt p hp
        · simpa using fun hp => ht.parentRoot hp
      · have h0 := h.task i k₂ hiold
        have hne : (t == i) = false := by simp [Ne.symm hit]
        refine ⟨h0.originDir, ?_, h0.exhRem, h0.moreEx, h0.pendEq, ?_,
          h0.issuedLe, h0.issuedIff, ?_, h0.sinkEq, h0.cancelEq,
          h0.parentLt, h0.parentRoot⟩
        · rw [eQ]
          simp only [isDriver_file, if_false]
          simpa using h0.driver
        · have hob := h0.oblig
          rw [eQ, hlive]
          simp [hne]
          omega
        · rw [eQ]
          simp only [isDirDel_file, if_false]
          simpa using h0.dirDelEq
    · intro k₂ hk₂
      simp only at hk₂
      rw [List.getElem?_set_eq_of_lt _ h.tlen] at hk₂
      cases hk₂
      simpa using hexh
    · intro k₂ hk₂
      simp only at hk₂
      rw [List.getElem?_set_eq_of_lt _ h.tlen] at hk₂
      cases hk₂
      simpa using hmore
    · intro r hr
      simp only at hr
      rcases getElem?_set_cases hr with ⟨h0t, hkv, _⟩ | ⟨_, hiold⟩
      · subst hkv
        have hx := h.rootIff k (by rw [h0t]; exact hk)
        simpa using hx
      · exact h.rootIff r hiold
    · intro is his
      simp only [List.mem_append, List.mem_singleton] at his
      rcases his with his | his
      · exact h.issueTok is his
      · subst his
        simp [siteTok]
    · intro is his
      simp only [List.mem_append, List.mem_singleton] at his
      rcases his with his | his
      · exact h.issueFlags is his
      · subst his
        simp [siteFlags]
    · intro d hd
      simp only [List.mem_append, List.mem_singleton] at hd
      rcases hd with hd | hd
      · exact h.dispOk d hd
      · subst hd
        simp [he]
    · intro ev hev
      simp only [List.mem_append, List.mem_singleton] at hev
      simp only [List.length_set]
      rcases hev with hev | hev
      · exact h.evValid ev hev
      · subst hev
        simpa [evTask] using h.tlen
    · have hw := h.wt
      have hsum := sum_map_set ({ k with pending := k.pending + 1, incrs := k.incrs + 1 }) taskW hk
      have htw : taskW ({ k with pending := k.pending + 1, incrs := k.incrs + 1 }) = taskW k := by
        simp [taskW]
      have hde := totalEntries_of_leaf he
      simp only [weight, List.map_append, List.sum_append, List.map_cons,
        List.sum_cons, List.map_nil, List.sum_nil, evW_file, totalList] at hw ⊢
      omega

end RmRf

namespace RmRf

theorem countP_mid_one {α : Type} (p : α → Bool) (q₁ q₂ : List α) (e : α)
    (he : p e = true) :
    (q₁ ++ e :: q₂).countP p = (q₁ ++ q₂).countP p + 1 := by
  rw [countP_mid, he]
  simp

theorem countP_mid_zero {α : Type} (p : α → Bool) (q₁ q₂ : List α) (e : α)
    (he : p e = false) :
    (q₁ ++ e :: q₂).countP p = (q₁ ++ q₂).countP p := by
  rw [countP_mid, he]
  simp

theorem dispatchBatch_invL {total : Nat} {tok : Option Nat} {t : Nat}
    (batch : List FSTree) :
    ∀ c, InvL total tok t batch c →
      InvL total tok t [] (dispatchBatch t batch c) := by
  induction batch with
  | nil => intro c h; exact h
  | cons e rest ih =>
    intro c h
    exact ih _ (dispatchOne_invL h)

theorem inv_of_invL {total : Nat} {tok : Option Nat} {t : Nat} {c : Config}
    (h : InvL total tok t [] c) : Inv total tok c :=
  ⟨h.tasksNe, h.task, h.rootIff, h.issueTok, h.issueFlags, h.dispOk,
   h.timerLe, h.timerFresh, h.evValid, by
     have hw := h.wt
     simpa [totalList] using hw⟩

theorem on_next_files_eq_empty {c : Config} {t : Nat} {k : Task}
    {q₁ q₂ : List Ev} (hk : c.tasks[t]? = some k)
    (hb : k.enumRemaining.take batchSize = []) :
    on_next_files t q₁ q₂ c =
      check_no_children t
        ({ c with queue := q₁ ++ q₂,
                  tasks := c.tasks.set t ({ k with haveMore := false, exhausted := true }) }) := by
  unfold on_next_files
  rw [hk]
  simp only [hb, List.isEmpty_nil, if_true]

theorem on_next_files_eq_cons {c : Config} {t : Nat} {k : Task}
    {q₁ q₂ : List Ev} (hk : c.tasks[t]? = some k)
    (hb : ¬k.enumRemaining.take batchSize = []) :
    on_next_files t q₁ q₂ c =
      dispatchBatch t (k.enumRemaining.take batchSize)
        ({ c with queue := q₁ ++ q₂ ++ [.nextFilesDone t],
                  tasks := c.tasks.set t ({ k with haveMore := true, enumRemaining := k.enumRemaining.drop batchSize }),
                  issues := c.issues ++ [⟨.contNext, none, none⟩] }) := by
  unfold on_next_files
  rw [hk]
  have hne : (k.enumRemaining.take batchSize).isEmpty = false := by
    cases hx : k.enumRemaining.take batchSize
    · exact absurd hx hb
    · rfl
  simp only [hne, Bool.false_eq_true, if_false]

theorem next_inv {total tok c t q₁ q₂} (h : Inv total tok c)
    (hq : c.queue = q₁ ++ Ev.nextFilesDone t :: q₂) :
    Inv total tok (on_next_files t q₁ q₂ c) := by
  have htv : t < c.tasks.length := by
    have := h.evValid (Ev.nextFilesDone t) (by rw [hq]; simp)
    simpa [evTask] using this
  obtain ⟨k, hk⟩ := exists_task_of_lt htv
  have ht := h.task t k hk
  have hdpos : 1 ≤ c.queue.countP (isDriver t) := by
    rw [hq, countP_mid]
    simp
  have hexh : k.exhausted = false := by
    cases hx : k.exhausted
    · rfl
    · exfalso
      have h1 := ht.driver
      rw [hx] at h1
      have h0 : c.queue.countP (isDriver t) = 0 := by simpa using h1
      omega
  have hdrv1 : c.queue.countP (isDriver t) = 1 := by
    have := ht.driver
    rw [hexh] at this
    simpa using this
  have hdrvq : (q₁ ++ q₂).countP (isDriver t) = 0 := by
    rw [hq, countP_mid_one _ _ _ _ (by simp)] at hdrv1
    omega
  have hiss0 : k.dirDeleteIssued = 0 := by
    have h1 := ht.issuedIff
    have h2 := ht.issuedLe
    by_contra hne
    have h3 : k.dirDeleteIssued = 1 := by omega
    have h4 := (h1.mp h3).2
    rw [hexh] at h4
    cases h4
  have eDrv : ∀ i, i ≠ t → (q₁ ++ q₂).countP (isDriver i)
      = c.queue.countP (isDriver i) := by
    intro i hne
    rw [hq, countP_mid]
    simp [Ne.symm hne]
  have eFD : ∀ i, (q₁ ++ q₂).countP (isFileDel i)
      = c.queue.countP (isFileDel i) := by
    intro i
    rw [hq, countP_mid]
    simp
  have eDD : ∀ i, (q₁ ++ q₂).countP (isDirDel i)
      = c.queue.countP (isDirDel i) := by
    intro i
    rw [hq, countP_mid]
    simp
  by_cases hb : k.enumRemaining.take batchSize = []
  · -- empty batch: the listing is exhausted, the enumerator closed,
    -- and check_no_children runs
    have hrem : k.enumRemaining = [] := by
      rcases List.take_eq_nil_iff.mp hb with h20 | hnil
      · simp [batchSize] at h20
      · exact hnil
    rw [on_next_files_eq_empty hk hb]
    have hkE : ({ c with queue := q₁ ++ q₂, tasks := c.tasks.set t ({ k with haveMore := false, exhausted := true }) } : Config).tasks[t]? = some ({ k with haveMore := false, exhausted := true }) := by
      simp only
      exact List.getElem?_set_eq_of_lt _ htv
    have hlive : ∀ j, (c.tasks.set t ({ k with haveMore := false, exhausted := true })).countP (isLiveChild j) = c.tasks.countP (isLiveChild j) := by
      intro j
      exact countP_set_congr _ _ hk (by simp [isLiveChild])
    by_cases hp0 : k.pending = 0
    · rw [check_no_children_pos hkE (by constructor <;> simp [hp0])]
      simp only [List.set_set]
      have hddz : c.queue.countP (isDirDel t) = 0 ∧ k.dirDeleteSucceeded = 0 := by
        have h1 := ht.dirDelEq
        omega
      have hlive2 : ∀ j, (c.tasks.set t ({ k with haveMore := false, exhausted := true, dirDeleteIssued := k.dirDeleteIssued + 1 })).countP (isLiveChild j) = c.tasks.countP (isLiveChild j) := by
        intro j
        exact countP_set_congr _ _ hk (by simp [isLiveChild])
      refine ⟨by simpa using h.tasksNe, ?_, ?_, ?_, ?_, h.dispOk, h.timerLe,
        h.timerFresh, ?_, ?_⟩
      · intro i k₂ hi
        simp only at hi
        rcases getElem?_set_cases hi with ⟨rfl, rfl, _⟩ | ⟨hit, hiold⟩
        · refine ⟨ht.originDir, ?_, ?_, ?_, ?_, ?_, ?_, ?_, ?_, ?_, ?_, ?_, ?_⟩
          · rw [countP_mid_zero _ _ _ _ (by simp), List.append_nil, hdrvq]
            simp
          · intro _
            simp [hrem]
          · intro _
            right
            rfl
          · simpa using ht.pendEq
          · have hob := ht.oblig
            rw [hq, countP_mid_zero _ _ _ _ (by simp)] at hob
            rw [countP_mid_zero _ _ _ _ (by simp), List.append_nil, hlive2 i]
            simp only
            omega
          · simp [hiss0]
          · simp [hp0, hiss0]
          · rw [countP_mid_one _ _ _ _ (by simp), List.append_nil]
            rw [eDD i, hddz.2]
            simp [hiss0, hddz.1]
          · simpa using ht.sinkEq
          · simpa using ht.cancelEq
          · simpa using fun p hp => ht.parentLt p hp
          · simpa using fun hp => ht.parentRoot hp
        · have h0 := h.task i k₂ hiold
          have hne : (t == i) = false := by simp [Ne.symm hit]
          refine ⟨h0.originDir, ?_, h0.exhRem, h0.moreEx, h0.pendEq, ?_,
            h0.issuedLe, h0.issuedIff, ?_, h0.sinkEq, h0.cancelEq,
            h0.parentLt, h0.parentRoot⟩
          · rw [countP_mid_zero _ _ _ _ (by simp), List.append_nil]
            rw [eDrv i hit]
            exact h0.driver
          · have hob := h0.oblig
            rw [countP_mid_zero _ _ _ _ (by simp), List.append_nil, hlive2 i]
            rw [← eFD i] at hob
            omega
          · rw [countP_mid_zero _ _ _ _ (by simp [hne]), List.append_nil]
            rw [eDD i]
            exact h0.dirDelEq
      · intro r hr
        simp only at hr
        rcases getElem?_set_cases hr with ⟨h0t, hkv, _⟩ | ⟨_, hiold⟩
        · subst hkv
          have hx := h.rootIff k (by rw [h0t]; exact hk)
          simpa using hx
        · exact h.rootIff r hiold
      · intro is his
        simp only [List.mem_append, List.mem_singleton] at his
        rcases his with his | his
        · exact h.issueTok is his
        · subst his
          simpa [siteTok] using ht.cancelEq
      · intro is his
        simp only [List.mem_append, List.mem_singleton] at his
        rcases his with his | his
        · exact h.issueFlags is his
        · subst his
          simp [siteFlags]
      · intro ev hev
        simp only [List.mem_append, List.mem_singleton] at hev
        simp only [List.length_set]
        rcases hev with hev | hev
        · exact h.evValid ev (by rw [hq]; simp only [List.mem_append] at hev ⊢; tauto)
        · subst hev
          simpa [evTask] using htv
      · have hw := h.wt
        have hsum := sum_map_set ({ k with haveMore := false, exhausted := true, dirDeleteIssued := k.dirDeleteIssued + 1 }) taskW hk
        have htw : taskW ({ k with haveMore := false, exhausted := true, dirDeleteIssued := k.dirDeleteIssued + 1 }) + 1 = taskW k := by
          simp [taskW, hiss0, hrem, totalList]
        simp only [weight, hq, List.map_append, List.sum_append, List.map_cons,
          List.sum_cons, List.map_nil, List.sum_nil, evW_next, evW_dir] at hw ⊢
        omega
    · rw [check_no_children_neg hkE (by simp [hp0])]
      refine ⟨by simpa using h.tasksNe, ?_, ?_, h.issueTok, h.issueFlags,
        h.dispOk, h.timerLe, h.timerFresh, ?_, ?_⟩
      · intro i k₂ hi
        simp only at hi
        rcases getElem?_set_cases hi with ⟨rfl, rfl, _⟩ | ⟨hit, hiold⟩
        · refine ⟨ht.originDir, ?_, ?_, ?_, ?_, ?_, ?_, ?_, ?_, ?_, ?_, ?_, ?_⟩
          · simp [hdrvq]
          · intro _
            simp [hrem]
          · intro _
            right
            rfl
          · simpa using ht.pendEq
          · have hob := ht.oblig
            rw [hlive i, eFD i]
            simpa using hob
          · simpa using ht.issuedLe
          · constructor
            · intro hx
              have hx1 : k.dirDeleteIssued = 1 := hx
              omega
            · intro hx
              exact absurd hx.1 hp0
          · rw [eDD i]
            simpa using ht.dirDelEq
          · simpa using ht.sinkEq
          · simpa using ht.cancelEq
          · simpa using fun p hp => ht.parentLt p hp
          · simpa using fun hp => ht.parentRoot hp
        · have h0 := h.task i k₂ hiold
          refine ⟨h0.originDir, ?_, h0.exhRem, h0.moreEx, h0.pendEq, ?_,
            h0.issuedLe, h0.issuedIff, ?_, h0.sinkEq, h0.cancelEq,
            h0.parentLt, h0.parentRoot⟩
          · rw [eDrv i hit]
            exact h0.driver
          · rw [hlive i, eFD i]
            exact h0.oblig
          · rw [eDD i]
            exact h0.dirDelEq
      · intro r hr
        simp only at hr
        rcases getElem?_set_cases hr with ⟨h0t, hkv, _⟩ | ⟨_, hiold⟩
        · subst hkv
          have hx := h.rootIff k (by rw [h0t]; exact hk)
          simpa using hx
        · exact h.rootIff r hiold
      · intro ev hev
        simp only at hev
        simp only [List.length_set]
        exact h.evValid ev (by rw [hq]; simp only [List.mem_append] at hev ⊢; tauto)
      · have hw := h.wt
        have hsum := sum_map_set ({ k with haveMore := false, exhausted := true }) taskW hk
        have htw : taskW ({ k with haveMore := false, exhausted := true }) = taskW k := by
          simp [taskW]
        simp only [weight, hq, List.map_append, List.sum_append, List.map_cons,
          List.sum_cons, List.map_nil, List.sum_nil, evW_next] at hw ⊢
        omega
  · -- non-empty batch: request the next batch, then dispatch this one
    rw [on_next_files_eq_cons hk hb]
    apply inv_of_invL
    apply dispatchBatch_invL
    have hlive : ∀ j, (c.tasks.set t ({ k with haveMore := true, enumRemaining := k.enumRemaining.drop batchSize })).countP (isLiveChild j) = c.tasks.countP (isLiveChild j) := by
      intro j
      exact countP_set_congr _ _ hk (by simp [isLiveChild])
    have eQ : ∀ (p : Ev → Bool), (q₁ ++ q₂ ++ [Ev.nextFilesDone t]).countP p = (q₁ ++ q₂).countP p + (if p (Ev.nextFilesDone t) then 1 else 0) := by
      intro p
      simp [List.countP_append, List.countP_cons]
      omega
    refine ⟨by simpa using h.tasksNe, by simpa using htv, ?_, ?_, ?_, ?_, ?_,
      ?_, h.dispOk, h.timerLe, h.timerFresh, ?_, ?_⟩
    · intro i k₂ hi
      simp only at hi
      rcases getElem?_set_cases hi with ⟨rfl, rfl, _⟩ | ⟨hit, hiold⟩
      · refine ⟨ht.originDir, ?_, ?_, ?_, ?_, ?_, ?_, ?_, ?_, ?_, ?_, ?_, ?_⟩
        · rw [eQ]
          simp only [isDriver_next, beq_self_eq_true, if_pos]
          rw [hdrvq]
          simp [hexh]
        · intro hx
          simp only at hx
          rw [hexh] at hx
          cases hx
        · intro hx
          cases hx
        · simpa using ht.pendEq
        · have hob := ht.oblig
          rw [eQ, hlive i, eFD i]
          simpa using hob
        · simpa using ht.issuedLe
        · constructor
          · intro hx
            have hx1 : k.dirDeleteIssued = 1 := hx
            omega
          · intro hx
            have hx2 := hx.2
            simp only at hx2
            rw [hexh] at hx2
            cases hx2
        · rw [eQ, eDD i]
          simpa using ht.dirDelEq
        · simpa using ht.sinkEq
        · simpa using ht.cancelEq
        · simpa using fun p hp => ht.parentLt p hp
        · simpa using fun hp => ht.parentRoot hp
      · have h0 := h.task i k₂ hiold
        have hne : (t == i) = false := by simp [Ne.symm hit]
        refine ⟨h0.originDir, ?_, h0.exhRem, h0.moreEx, h0.pendEq, ?_,
          h0.issuedLe, h0.issuedIff, ?_, h0.sinkEq, h0.cancelEq,
          h0.parentLt, h0.parentRoot⟩
        · rw [eQ]
          simp only [isDriver_next, hne, if_false, Nat.add_zero]
          rw [eDrv i hit]
          exact h0.driver
        · rw [eQ, hlive i, eFD i]
          simpa using h0.oblig
        · rw [eQ, eDD i]
          simpa using h0.dirDelEq
    · intro k₂ hk₂
      simp only at hk₂
      rw [List.getElem?_set_eq_of_lt _ htv] at hk₂
      cases hk₂
      simpa using hexh
    · intro k₂ hk₂
      simp only at hk₂
      rw [List.getElem?_set_eq_of_lt _ htv] at hk₂
      cases hk₂
      rfl
    · intro r hr
      simp only at hr
      rcases getElem?_set_cases hr with ⟨h0t, hkv, _⟩ | ⟨_, hiold⟩
      · subst hkv
        have hx := h.rootIff k (by rw [h0t]; exact hk)
        simpa using hx
      · exact h.rootIff r hiold
    · intro is his
      simp only [List.mem_append, List.mem_singleton] at his
      rcases his with his | his
      · exact h.issueTok is his
      · subst his
        simp [siteTok]
    · intro is his
      simp only [List.mem_append, List.mem_singleton] at his
      rcases his with his | his
      · exact h.issueFlags is his
      · subst his
        simp [siteFlags]
    · intro ev hev
      simp only [List.mem_append, List.mem_singleton] at hev
      simp only [List.length_set]
      rcases hev with (hev | hev) | hev
      · exact h.evValid ev (by rw [hq]; simp only [List.mem_append] at hev ⊢; tauto)
      · exact h.evValid ev (by rw [hq]; simp only [List.mem_append] at hev ⊢; tauto)
      · subst hev
        simpa [evTask] using htv
    · have hw := h.wt
      have hsum := sum_map_set ({ k with haveMore := true, enumRemaining := k.enumRemaining.drop batchSize }) taskW hk
      have htw : taskW ({ k with haveMore := true, enumRemaining := k.enumRemaining.drop batchSize }) + totalList (k.enumRemaining.take batchSize) = taskW k := by
        simp only [taskW]
        have := totalList_take_drop batchSize k.enumRemaining
        omega
      simp only [weight, hq, List.map_append, List.sum_append, List.map_cons,
        List.sum_cons, List.map_nil, List.sum_nil, evW_next] at hw ⊢
      omega

end RmRf

namespace RmRf

/-- Every step of the machine preserves the global invariant. -/
theorem step_inv {total tok c c'} (h : Inv total tok c) (hs : Step c c') :
    Inv total tok c' := by
  cases hs with
  | enumOk t q₁ q₂ halive hq => exact enum_inv h hq
  | nextOk t q₁ q₂ halive hq => exact next_inv h hq
  | fileOk t q₁ q₂ halive hq => exact file_inv h hq
  | dirOk t q₁ q₂ halive hq => exact dir_inv h hq
  | opErr ev q₁ q₂ msg halive hq => exact fatal_inv h
  | timer halive hact => exact timer_inv h hact
  | finish halive hdone => exact main_return_inv h

/-- Every state reachable from `init cs tok` satisfies the global
invariant, with `total` the number of entries of the whole tree. -/
theorem reach_inv {cs : List FSTree} {tok : Option Nat} {c : Config}
    (h : Reach (init cs tok) c) :
    Inv (totalEntries (.dir cs)) tok c := by
  induction h with
  | refl => exact init_inv cs tok
  | tail _ hs ih => exact step_inv ih hs

/-- Once the main loop has quit, every task's completion sink has
fired exactly once (children strictly before their ancestors). -/
theorem all_sunk {total tok c} (h : Inv total tok c)
    (hdone : c.rootDone = true) :
    ∀ (i : Nat) (k : Task), c.tasks[i]? = some k → k.sinkInvoked = 1 := by
  intro i
  induction i using Nat.strong_induction_on with
  | _ i ih =>
    intro k hk
    have ht := h.task i k hk
    cases hpar : k.parent with
    | none =>
      have h0 : i = 0 := ht.parentRoot hpar
      subst h0
      exact (h.rootIff k hk).mp hdone
    | some p =>
      have hpi : p < i := ht.parentLt p hpar
      have hplen : p < c.tasks.length := lt_trans hpi (lt_of_getElem?_eq_some hk)
      obtain ⟨kp, hkp⟩ := exists_task_of_lt hplen
      have hps : kp.sinkInvoked = 1 := ih p hpi kp hkp
      have htp := h.task p kp hkp
      have hiss : kp.dirDeleteIssued = 1 := by
        have h1 := htp.dirDelEq
        have h2 := htp.issuedLe
        have h3 := htp.sinkEq
        omega
      have hpend : kp.pending = 0 := (htp.issuedIff.mp hiss).1
      have hlz : c.tasks.countP (isLiveChild p) = 0 := by
        have h1 := htp.oblig
        have h2 := htp.pendEq
        omega
      by_contra hne
      have hz : k.sinkInvoked = 0 := by
        have h1 := ht.sinkEq
        have h2 := ht.dirDelEq
        have h3 := ht.issuedLe
        omega
      have hmem : isLiveChild p k = true := by
        simp [isLiveChild, hpar, hz]
      have : 0 < c.tasks.countP (isLiveChild p) :=
        countP_pos_of_getElem? _ hk hmem
      omega

/-- Once the main loop has quit, no operation is in flight any
more. -/
theorem queue_empty {total tok c} (h : Inv total tok c)
    (hdone : c.rootDone = true) : c.queue = [] := by
  rw [List.eq_nil_iff_forall_not_mem]
  intro ev hev
  have hvalid := h.evValid ev hev
  obtain ⟨k, hk⟩ := exists_task_of_lt hvalid
  have ht := h.task (evTask ev) k hk
  have hsunk := all_sunk h hdone (evTask ev) k hk
  have hiss : k.dirDeleteIssued = 1 := by
    have h1 := ht.dirDelEq
    have h2 := ht.issuedLe
    have h3 := ht.sinkEq
    omega
  have hexh : k.exhausted = true := (ht.issuedIff.mp hiss).2
  have hpend : k.pending = 0 := (ht.issuedIff.mp hiss).1
  have hdrv : c.queue.countP (isDriver (evTask ev)) = 0 := by
    have := ht.driver
    rw [hexh] at this
    simpa using this
  have hfd : c.queue.countP (isFileDel (evTask ev)) = 0 := by
    have h1 := ht.oblig
    have h2 := ht.pendEq
    omega
  have hdd : c.queue.countP (isDirDel (evTask ev)) = 0 := by
    have h1 := ht.dirDelEq
    have h2 := ht.sinkEq
    omega
  cases ev with
  | enumDone j =>
    have hpos : 0 < c.queue.countP (isDriver j) :=
      List.countP_pos_iff.mpr ⟨_, hev, by simp⟩
    have hz : c.queue.countP (isDriver j) = 0 := hdrv
    omega
  | nextFilesDone j =>
    have hpos : 0 < c.queue.countP (isDriver j) :=
      List.countP_pos_iff.mpr ⟨_, hev, by simp⟩
    have hz : c.queue.countP (isDriver j) = 0 := hdrv
    omega
  | fileDelDone j =>
    have hpos : 0 < c.queue.countP (isFileDel j) :=
      List.countP_pos_iff.mpr ⟨_, hev, by simp⟩
    have hz : c.queue.countP (isFileDel j) = 0 := hfd
    omega
  | dirDelDone j =>
    have hpos : 0 < c.queue.countP (isDirDel j) :=
      List.countP_pos_iff.mpr ⟨_, hev, by simp⟩
    have hz : c.queue.countP (isDirDel j) = 0 := hdd
    omega

/-- On a completed run the exact number of deletions performed equals
the total number of entries of the original tree (the stored 32-bit
`files_deleted` holds this value modulo 2^32, see `reach_fdMod`). -/
theorem counter_exact {total tok c} (h : Inv total tok c)
    (hdone : c.rootDone = true) : c.deletions = total := by
  have hq := queue_empty h hdone
  have hw := h.wt
  have htz : (c.tasks.map taskW).sum = 0 := by
    rw [List.sum_eq_zero]
    intro x hx
    simp only [List.mem_map] at hx
    obtain ⟨k, hkmem, hkx⟩ := hx
    obtain ⟨i, hi⟩ := List.getElem?_of_mem hkmem
    have ht := h.task i k hi
    have hsunk := all_sunk h hdone i k hi
    have hiss : k.dirDeleteIssued = 1 := by
      have h1 := ht.dirDelEq
      have h2 := ht.issuedLe
      have h3 := ht.sinkEq
      omega
    have hexh : k.exhausted = true := (ht.issuedIff.mp hiss).2
    have hrem : k.enumRemaining = [] := (ht.exhRem hexh).1
    rw [← hkx]
    simp [taskW, hrem, totalList, hiss]
  simp only [weight, hq, List.map_nil, List.sum_nil, htz] at hw
  omega

end RmRf

namespace RmRf

/-- One primitive action of the `on_next_files` callback body, used to
state intra-callback ordering. -/
inductive Act where
  | setHaveMore : Bool → Act
  | requestNextBatch : Act
  | closeEnumerator : Act
  | checkChildren : Act
  | incrPending : Act
  | dispatchRecurse : Act
  | dispatchLeafDelete : Act
deriving DecidableEq

/-- The body of `on_next_files` (C lines 133-164) transcribed in source
order as a list of actions on one delivered batch: first the
if/else (non-empty: set `have_more_files`, immediately request the
next batch, C lines 135-137; empty: clear it, close the enumerator,
run `check_no_children`, C lines 141-144), and then the dispatch loop
over the batch's entries (C lines 149-164), which for each entry
increments `num_files_pending` and dispatches a recursive walk or a
leaf delete. -/
def onNextFilesActions (batch : List FSTree) : List Act :=
  (if batch.isEmpty then
    [.setHaveMore false, .closeEnumerator, .checkChildren]
  else
    [.setHaveMore true, .requestNextBatch]) ++
  batch.flatMap (fun e =>
    [.incrPending,
     if fileType e = GFileType.directory then .dispatchRecurse
     else .dispatchLeafDelete])

theorem requestNextBatch_not_mem_loop (batch : List FSTree) :
    Act.requestNextBatch ∉ batch.flatMap (fun e =>
      [Act.incrPending,
       if fileType e = GFileType.directory then Act.dispatchRecurse
       else Act.dispatchLeafDelete]) := by
  intro hmem
  rw [List.mem_flatMap] at hmem
  obtain ⟨e, _, hin⟩ := hmem
  by_cases hd : fileType e = GFileType.directory
  · rw [if_pos hd] at hin
    simp at hin
  · rw [if_neg hd] at hin
    simp at hin

theorem count_incr_loop (batch : List FSTree) :
    (batch.flatMap (fun e =>
      [Act.incrPending,
       if fileType e = GFileType.directory then Act.dispatchRecurse
       else Act.dispatchLeafDelete])).count Act.incrPending
      = batch.length := by
  induction batch with
  | nil => rfl
  | cons e rest ih =>
    simp only [List.flatMap_cons, List.count_append, ih, List.length_cons]
    have : ([Act.incrPending,
        if fileType e = GFileType.directory then Act.dispatchRecurse
        else Act.dispatchLeafDelete]).count Act.incrPending = 1 := by
      by_cases hd : fileType e = GFileType.directory
      · rw [if_pos hd]
        rfl
      · rw [if_neg hd]
        rfl
    rw [this]
    omega

/-- In the C `argv` array, `argv[0]` is the program name, the arguments
follow, and `argv[argc]` is the terminating NULL pointer. -/
def argvCells (prog : String) (args : List String) : List (Option String) :=
  some prog :: args.map some ++ [none]

/-- `main` (C line 250): `path = g_file_new_for_path (argv[1])` — the
value read from `argv[1]` with no check of `argc`; with no arguments
this reads the terminating NULL. -/
def mainPathArg (prog : String) (args : List String) : Option String :=
  (argvCells prog args).getD 1 none

end RmRf

namespace RmRf

theorem dispatchOne_task {c : Config} {t : Nat} {k : Task} (e : FSTree)
    (hk : c.tasks[t]? = some k) :
    (dispatchOne t e c).tasks[t]?
      = some ({ k with pending := k.pending + 1, incrs := k.incrs + 1 }) := by
  have htv := lt_of_getElem?_eq_some hk
  by_cases he : fileType e = GFileType.directory
  · rw [dispatchOne_eq_dir hk he]
    simp only
    rw [List.getElem?_append_left (by simp only [List.length_set]; exact htv)]
    exact List.getElem?_set_eq_of_lt _ htv
  · rw [dispatchOne_eq_leaf hk he]
    simp only
    exact List.getElem?_set_eq_of_lt _ htv

theorem dispatchOne_queue {c : Config} {t : Nat} {k : Task} (e : FSTree)
    (hk : c.tasks[t]? = some k) {ev : Ev} (hev : ev ∈ c.queue) :
    ev ∈ (dispatchOne t e c).queue := by
  by_cases he : fileType e = GFileType.directory
  · rw [dispatchOne_eq_dir hk he]
    simp only [List.mem_append]
    left
    exact hev
  · rw [dispatchOne_eq_leaf hk he]
    simp only [List.mem_append]
    left
    exact hev

theorem dispatchBatch_pending (batch : List FSTree) :
    ∀ (c : Config) (t : Nat) (k : Task), c.tasks[t]? = some k →
      ∃ k', (dispatchBatch t batch c).tasks[t]? = some k'
        ∧ k'.pending = k.pending + batch.length
        ∧ k'.incrs = k.incrs + batch.length := by
  induction batch with
  | nil =>
    intro c t k hk
    exact ⟨k, hk, by simp, by simp⟩
  | cons e rest ih =>
    intro c t k hk
    obtain ⟨k', hk', hp, hi⟩ := ih (dispatchOne t e c) t _ (dispatchOne_task e hk)
    refine ⟨k', hk', ?_, ?_⟩
    · rw [hp]
      simp only [List.length_cons]
      push_cast
      ring
    · rw [hi]
      simp only [List.length_cons]
      omega

theorem dispatchBatch_queue (batch : List FSTree) :
    ∀ (c : Config) (t : Nat) (k : Task), c.tasks[t]? = some k →
      ∀ ev ∈ c.queue, ev ∈ (dispatchBatch t batch c).queue := by
  induction batch with
  | nil =>
    intro c t k _ ev hev
    exact hev
  | cons e rest ih =>
    intro c t k hk ev hev
    exact ih (dispatchOne t e c) t _ (dispatchOne_task e hk)
      ev (dispatchOne_queue e hk hev)

end RmRf

namespace RmRf

/-- The run on an empty root directory reaches `cA3`: enumeration,
empty batch (exhaustion and immediate directory delete), delete
success (main loop quits). -/
theorem reachA3 : Reach cA0 cA3 :=
  Reach.tail (Reach.tail (Reach.tail Reach.refl (Step.enumOk cA0 0 [] [] rfl rfl))
    (Step.nextOk cA1 0 [] [] rfl rfl)) (Step.dirOk cA2 0 [] [] rfl rfl)

/-- The same run, continued to the final progress print and `main`'s
return 0. -/
theorem reachA4 : Reach cA0 cA4 :=
  Reach.tail reachA3 (Step.finish cA3 rfl rfl)

/-- Run B: a root with one regular file, with a non-null cancellation
token handed to the engine. -/
def cB0 : Config := init [.regular] (some 0)

def cB1 : Config := on_enumerate_children 0 [] [] cB0

def cB2 : Config := on_next_files 0 [] [] cB1

def tB1 : Task := cB1.tasks.getD 0 default

def tB2 : Task := cB2.tasks.getD 0 default

theorem reachB2 : Reach cB0 cB2 :=
  Reach.tail (Reach.tail Reach.refl (Step.enumOk cB0 0 [] [] rfl rfl))
    (Step.nextOk cB1 0 [] [] rfl rfl)

/-- Run C: a root with one regular file, no token; the leaf delete
fails, so `fatal_gerror` prints and exits 1. -/
def cC0 : Config := init [.regular] none

def cC1 : Config := on_enumerate_children 0 [] [] cC0

def cC2 : Config := on_next_files 0 [] [] cC1

def cC3 : Config := fatal_gerror "permission denied" cC2

theorem reachC3 : Reach cC0 cC3 :=
  Reach.tail (Reach.tail (Reach.tail Reach.refl (Step.enumOk cC0 0 [] [] rfl rfl))
    (Step.nextOk cC1 0 [] [] rfl rfl))
    (Step.opErr cC2 (Ev.fileDelDone 0) [Ev.nextFilesDone 0] [] "permission denied" rfl rfl)

/-- Run D: a root with one symlink entry. -/
def cD0 : Config := init [.symlink] none

def cD1 : Config := on_enumerate_children 0 [] [] cD0

def cD2 : Config := on_next_files 0 [] [] cD1

theorem reachD2 : Reach cD0 cD2 :=
  Reach.tail (Reach.tail Reach.refl (Step.enumOk cD0 0 [] [] rfl rfl))
    (Step.nextOk cD1 0 [] [] rfl rfl)

def tA3 : Task := cA3.tasks.getD 0 default

end RmRf

namespace RmRf

theorem check_no_children_fd (t : Nat) (c : Config) :
    (check_no_children t c).filesDeleted = c.filesDeleted := by
  unfold check_no_children
  cases hx : c.tasks[t]? with
  | none => rfl
  | some k =>
    dsimp only
    split <;> rfl

theorem decrement_and_check_fd (t : Nat) (c : Config) :
    (decrement_and_check t c).filesDeleted = c.filesDeleted := by
  unfold decrement_and_check
  cases hx : c.tasks[t]? with
  | none => rfl
  | some k =>
    dsimp only
    rw [check_no_children_fd]

theorem dispatchOne_fd (t : Nat) (e : FSTree) (c : Config) :
    (dispatchOne t e c).filesDeleted = c.filesDeleted := by
  unfold dispatchOne rm_rf_async
  cases hx : c.tasks[t]? with
  | none => rfl
  | some k =>
    dsimp only
    split <;> rfl

theorem dispatchBatch_fd (batch : List FSTree) :
    ∀ (t : Nat) (c : Config),
      (dispatchBatch t batch c).filesDeleted = c.filesDeleted := by
  induction batch with
  | nil => intro t c; rfl
  | cons e rest ih =>
    intro t c
    show (dispatchBatch t rest (dispatchOne t e c)).filesDeleted = _
    rw [ih, dispatchOne_fd]

theorem on_enumerate_children_fd (t : Nat) (q₁ q₂ : List Ev) (c : Config) :
    (on_enumerate_children t q₁ q₂ c).filesDeleted = c.filesDeleted := by
  unfold on_enumerate_children
  cases hx : c.tasks[t]? <;> rfl

theorem on_next_files_fd (t : Nat) (q₁ q₂ : List Ev) (c : Config) :
    (on_next_files t q₁ q₂ c).filesDeleted = c.filesDeleted := by
  unfold on_next_files
  cases hx : c.tasks[t]? with
  | none => rfl
  | some k =>
    dsimp only
    split
    · rw [check_no_children_fd]
    · rw [dispatchBatch_fd]

theorem check_no_children_del (t : Nat) (c : Config) :
    (check_no_children t c).deletions = c.deletions := by
  unfold check_no_children
  cases hx : c.tasks[t]? with
  | none => rfl
  | some k =>
    dsimp only
    split <;> rfl

theorem decrement_and_check_del (t : Nat) (c : Config) :
    (decrement_and_check t c).deletions = c.deletions := by
  unfold decrement_and_check
  cases hx : c.tasks[t]? with
  | none => rfl
  | some k =>
    dsimp only
    rw [check_no_children_del]

theorem dispatchOne_del (t : Nat) (e : FSTree) (c : Config) :
    (dispatchOne t e c).deletions = c.deletions := by
  unfold dispatchOne rm_rf_async
  cases hx : c.tasks[t]? with
  | none => rfl
  | some k =>
    dsimp only
    split <;> rfl

theorem dispatchBatch_del (batch : List FSTree) :
    ∀ (t : Nat) (c : Config),
      (dispatchBatch t batch c).deletions = c.deletions := by
  induction batch with
  | nil => intro t c; rfl
  | cons e rest ih =>
    intro t c
    show (dispatchBatch t rest (dispatchOne t e c)).deletions = _
    rw [ih, dispatchOne_del]

theorem on_enumerate_children_del (t : Nat) (q₁ q₂ : List Ev) (c : Config) :
    (on_enumerate_children t q₁ q₂ c).deletions = c.deletions := by
  unfold on_enumerate_children
  cases hx : c.tasks[t]? <;> rfl

theorem on_next_files_del (t : Nat) (q₁ q₂ : List Ev) (c : Config) :
    (on_next_files t q₁ q₂ c).deletions = c.deletions := by
  unfold on_next_files
  cases hx : c.tasks[t]? with
  | none => rfl
  | some k =>
    dsimp only
    split
    · rw [check_no_children_del]
    · rw [dispatchBatch_del]

theorem on_file_deleted_fd (t : Nat) (q₁ q₂ : List Ev) (c : Config) :
    (on_file_deleted t q₁ q₂ c).filesDeleted = guint_incr c.filesDeleted := by
  unfold on_file_deleted
  rw [decrement_and_check_fd]

theorem on_file_deleted_del (t : Nat) (q₁ q₂ : List Ev) (c : Config) :
    (on_file_deleted t q₁ q₂ c).deletions = c.deletions + 1 := by
  unfold on_file_deleted
  rw [decrement_and_check_del]

theorem on_end_directory_deleted_fd (t : Nat) (q₁ q₂ : List Ev) (c : Config) :
    ((on_end_directory_deleted t q₁ q₂ c).filesDeleted = c.filesDeleted
       ∧ (on_end_directory_deleted t q₁ q₂ c).deletions = c.deletions)
    ∨ ((on_end_directory_deleted t q₁ q₂ c).filesDeleted = guint_incr c.filesDeleted
       ∧ (on_end_directory_deleted t q₁ q₂ c).deletions = c.deletions + 1) := by
  unfold on_end_directory_deleted
  cases hx : c.tasks[t]? with
  | none => left; exact ⟨rfl, rfl⟩
  | some k =>
    right
    dsimp only
    cases hp : k.parent with
    | none => exact ⟨rfl, rfl⟩
    | some p =>
      dsimp only
      rw [decrement_and_check_fd, decrement_and_check_del]
      exact ⟨rfl, rfl⟩

theorem on_end_directory_deleted_fd_some (t : Nat) (q₁ q₂ : List Ev)
    {c : Config} {k : Task} (hk : c.tasks[t]? = some k) :
    (on_end_directory_deleted t q₁ q₂ c).filesDeleted = guint_incr c.filesDeleted
      ∧ (on_end_directory_deleted t q₁ q₂ c).deletions = c.deletions + 1 := by
  unfold on_end_directory_deleted
  rw [hk]
  dsimp only
  cases hp : k.parent with
  | none => exact ⟨rfl, rfl⟩
  | some p =>
    dsimp only
    rw [decrement_and_check_fd, decrement_and_check_del]
    exact ⟨rfl, rfl⟩

/-- Across any single step the exact deletion count never decreases and
grows by at most one. -/
theorem step_deletions {c c' : Config} (hs : Step c c') :
    c.deletions ≤ c'.deletions
      ∧ c'.deletions ≤ c.deletions + 1 := by
  cases hs with
  | enumOk t q₁ q₂ halive hq =>
    rw [on_enumerate_children_del]
    omega
  | nextOk t q₁ q₂ halive hq =>
    rw [on_next_files_del]
    omega
  | fileOk t q₁ q₂ halive hq =>
    rw [on_file_deleted_del]
    omega
  | dirOk t q₁ q₂ halive hq =>
    rcases on_end_directory_deleted_fd t q₁ q₂ c with ⟨_, h1⟩ | ⟨_, h1⟩ <;>
      rw [h1] <;> omega
  | opErr ev q₁ q₂ msg halive hq =>
    show c.deletions ≤ c.deletions ∧ c.deletions ≤ c.deletions + 1
    omega
  | timer halive hact =>
    show c.deletions ≤ c.deletions ∧ c.deletions ≤ c.deletions + 1
    omega
  | finish halive hdone =>
    show c.deletions ≤ c.deletions ∧ c.deletions ≤ c.deletions + 1
    omega

theorem guint_incr_mod (d : Nat) :
    guint_incr (d % guintSize) = (d + 1) % guintSize := by
  unfold guint_incr
  exact Nat.mod_add_mod d guintSize 1

/-- Every step keeps the stored 32-bit counter equal to the exact
deletion count modulo 2^32. -/
theorem step_fdMod {c c' : Config} (hs : Step c c')
    (hmod : c.filesDeleted = c.deletions % guintSize) :
    c'.filesDeleted = c'.deletions % guintSize := by
  cases hs with
  | enumOk t q₁ q₂ halive hq =>
    rw [on_enumerate_children_fd, on_enumerate_children_del, hmod]
  | nextOk t q₁ q₂ halive hq =>
    rw [on_next_files_fd, on_next_files_del, hmod]
  | fileOk t q₁ q₂ halive hq =>
    rw [on_file_deleted_fd, on_file_deleted_del, hmod, guint_incr_mod]
  | dirOk t q₁ q₂ halive hq =>
    rcases on_end_directory_deleted_fd t q₁ q₂ c with ⟨h1, h2⟩ | ⟨h1, h2⟩
    · rw [h1, h2, hmod]
    · rw [h1, h2, hmod, guint_incr_mod]
  | opErr ev q₁ q₂ msg halive hq => exact hmod
  | timer halive hact => exact hmod
  | finish halive hdone => exact hmod

/-- In every reachable state the stored 32-bit `files_deleted` equals
the exact number of deletions performed, modulo 2^32. -/
theorem reach_fdMod {cs : List FSTree} {tok : Option Nat} {c : Config}
    (hr : Reach (init cs tok) c) :
    c.filesDeleted = c.deletions % guintSize := by
  induction hr with
  | refl => rfl
  | tail _ hs ih => exact step_fdMod hs ih

theorem totalList_replicate (n : Nat) :
    totalList (List.replicate n FSTree.regular) = n := by
  induction n with
  | zero => rfl
  | succ m ih =>
    rw [List.replicate_succ]
    simp [totalList, totalEntries, ih]
    omega

end RmRf

namespace RmRf

/-- Claim C1: in every reachable state of a run, a directory task's own
delete has been issued exactly when its count of pending child
operations is zero and its listing has been exhausted (the condition
being re-established after every decrement and after exhaustion, which
the invariant's preservation proof checks at each such transition); and
once the delete is issued, every child observed in the listing has
reached its terminal state — no leaf delete of the task is in flight,
its enumerator has yielded everything, and every child directory task's
completion sink has fired — so every observed child is removed before
the parent directory itself.  No ordering between siblings is imposed:
the step relation delivers completions in any order. -/
theorem claim_C1 : ∀ (cs : List FSTree) (tok : Option Nat) (c : Config),
    Reach (init cs tok) c → ∀ (i : Nat) (k : Task), c.tasks[i]? = some k →
    ((k.dirDeleteIssued = 1 ↔ (k.pending = 0 ∧ k.exhausted = true)) ∧
     (k.dirDeleteIssued = 1 →
        k.enumRemaining = [] ∧ c.queue.countP (isFileDel i) = 0 ∧
        ∀ (j : Nat) (kc : Task), c.tasks[j]? = some kc →
          kc.parent = some i → kc.sinkInvoked = 1)) := by
  intro cs tok c hr i k hk
  have h := reach_inv hr
  have ht := h.task i k hk
  refine ⟨ht.issuedIff, ?_⟩
  intro hiss
  have hpend := (ht.issuedIff.mp hiss).1
  have hexh := (ht.issuedIff.mp hiss).2
  have hrem := (ht.exhRem hexh).1
  have hfd : c.queue.countP (isFileDel i) = 0 := by
    have h1 := ht.oblig
    have h2 := ht.pendEq
    omega
  have hlz : c.tasks.countP (isLiveChild i) = 0 := by
    have h1 := ht.oblig
    have h2 := ht.pendEq
    omega
  refine ⟨hrem, hfd, ?_⟩
  intro j kc hkc hpar
  have htc := h.task j kc hkc
  by_contra hne
  have hz : kc.sinkInvoked = 0 := by
    have h1 := htc.sinkEq
    have h2 := htc.dirDelEq
    have h3 := htc.issuedLe
    omega
  have hmem : isLiveChild i kc = true := by
    simp [isLiveChild, hpar, hz]
  have := countP_pos_of_getElem? _ hkc hmem
  omega

/-- Witness for C1 on the concrete empty-directory run: in its final
state the root task has issued its own delete, with zero pending
children and the listing exhausted. -/
theorem claim_C1_witness :
    cA3.tasks[0]? = some tA3
      ∧ (tA3.dirDeleteIssued = 1 ↔ (tA3.pending = 0 ∧ tA3.exhausted = true))
      ∧ tA3.enumRemaining = [] :=
  ⟨rfl, (claim_C1 [] none cA3 reachA3 0 tA3 rfl).1,
   ((claim_C1 [] none cA3 reachA3 0 tA3 rfl).2 (by rfl)).1⟩

/-- Claim C2: in every reachable state, every directory task has issued
its own directory delete at most once and its completion sink
(`g_simple_async_result_complete`, which runs the parent's
decrement-and-reevaluate or the top-level notification) has fired at
most once, and exactly as many times as its own directory delete has
succeeded — never before that success; and once the top-level run has
completed (the main loop quit), every task's sink has fired exactly
once — never zero times. -/
theorem claim_C2 : ∀ (cs : List FSTree) (tok : Option Nat) (c : Config),
    Reach (init cs tok) c → ∀ (i : Nat) (k : Task), c.tasks[i]? = some k →
      k.dirDeleteIssued ≤ 1 ∧ k.sinkInvoked ≤ 1
        ∧ k.sinkInvoked = k.dirDeleteSucceeded
        ∧ (c.rootDone = true → k.sinkInvoked = 1) := by
  intro cs tok c hr i k hk
  have h := reach_inv hr
  have ht := h.task i k hk
  refine ⟨ht.issuedLe, ?_, ht.sinkEq, fun hdone => all_sunk h hdone i k hk⟩
  have h1 := ht.dirDelEq
  have h2 := ht.issuedLe
  have h3 := ht.sinkEq
  omega

/-- Witness for C2 on the completed empty-directory run: the root
task's sink fired exactly once. -/
theorem claim_C2_witness : cA3.rootDone = true ∧ tA3.sinkInvoked = 1 :=
  ⟨rfl, (claim_C2 [] none cA3 reachA3 0 tA3 rfl).2.2.2 rfl⟩

/-- Claim C3 (the code deviates from it): `files_deleted` (C line 35)
is a 32-bit unsigned `guint`, so each successful deletion sets it to
its successor modulo 2^32 rather than incrementing it outright.  In
every reachable state the stored counter equals the exact number of
deletions performed modulo 2^32, and on every run that completes (the
main loop quit) the exact number of deletions equals the total entry
count of the tree — so the counter equals that total only while the
total stays below 2^32.  On a root directory holding 2^32 regular
files the completed-run counter reads 1, not the 2^32 + 1 entries
actually deleted; and at the wrap point the increment takes the
counter from 2^32 - 1 to 0, a decrease, so the counter does not only
increase. -/
theorem claim_C3 :
    (∀ (cs : List FSTree) (tok : Option Nat) (c : Config),
       Reach (init cs tok) c →
       c.filesDeleted = c.deletions % guintSize ∧
       (c.rootDone = true →
          c.deletions = totalEntries (FSTree.dir cs) ∧
          c.filesDeleted = totalEntries (FSTree.dir cs) % guintSize)) ∧
    (∀ (t : Nat) (q₁ q₂ : List Ev) (c : Config),
       (on_file_deleted t q₁ q₂ c).filesDeleted = guint_incr c.filesDeleted ∧
       (on_file_deleted t q₁ q₂ c).deletions = c.deletions + 1) ∧
    (∀ (t : Nat) (q₁ q₂ : List Ev) (c : Config) (k : Task),
       c.tasks[t]? = some k →
       (on_end_directory_deleted t q₁ q₂ c).filesDeleted
           = guint_incr c.filesDeleted ∧
       (on_end_directory_deleted t q₁ q₂ c).deletions = c.deletions + 1) ∧
    (guint_incr (guintSize - 1) = 0 ∧
     totalEntries (FSTree.dir (List.replicate guintSize FSTree.regular))
         % guintSize
       ≠ totalEntries (FSTree.dir (List.replicate guintSize FSTree.regular))) := by
  refine ⟨?_, ?_, ?_, ?_, ?_⟩
  · intro cs tok c hr
    have h := reach_inv hr
    refine ⟨reach_fdMod hr, fun hdone => ?_⟩
    have hd := counter_exact h hdone
    exact ⟨hd, by rw [reach_fdMod hr, hd]⟩
  · intro t q₁ q₂ c
    exact ⟨on_file_deleted_fd t q₁ q₂ c, on_file_deleted_del t q₁ q₂ c⟩
  · intro t q₁ q₂ c k hk
    exact on_end_directory_deleted_fd_some t q₁ q₂ hk
  · decide
  · rw [totalEntries_dir, totalList_replicate]
    simp only [guintSize]
    omega

/-- Witness for C3 on the completed empty-directory run: exactly one
entry was deleted and the stored 32-bit counter reads 1 = 1 mod
2^32. -/
theorem claim_C3_witness :
    cA3.deletions = totalEntries (FSTree.dir [])
      ∧ cA3.filesDeleted = totalEntries (FSTree.dir []) % guintSize :=
  (claim_C3.1 [] none cA3 reachA3).2 rfl

/-- Counterexample for C4 as stated: in the concrete run where the one
leaf delete fails, the process prints the message and exits 1 directly
from the callback, but the error is never surfaced to the top-level
caller through the completion notification — the notification never
fires at all (the main loop never quits and the root task's sink count
is 0). -/
theorem claim_C4_cex :
    Reach cC0 cC3 ∧ cC3.exited = some 1
      ∧ cC3.stderrLog = ["permission denied"]
      ∧ cC3.rootDone = false
      ∧ cC3.tasks.map Task.sinkInvoked = [0] :=
  ⟨reachC3, rfl, rfl, rfl, rfl⟩

/-- Claim C4, amended: on the first fatal I/O error the process prints
the error message to the error stream and exits with code 1 directly
from the failing callback (`fatal_gerror`), with no retries — the
machine has no step out of an exited state; the completion
notification carries no error payload (it fires only on success, see
C2); on full success `main` returns 0 after the final print. -/
theorem claim_C4 :
    (∀ (c : Config) (msg : String),
       (fatal_gerror msg c).exited = some 1
         ∧ (fatal_gerror msg c).stderrLog = c.stderrLog ++ [msg]) ∧
    (∀ (c c' : Config), Step c c' → c.exited = none) ∧
    (∀ c : Config, c.rootDone = true → (main_return c).exited = some 0) := by
  refine ⟨fun c msg => ⟨rfl, rfl⟩, ?_, fun c _ => rfl⟩
  intro c c' hs
  cases hs <;> assumption

/-- Witness for C4 (amended) on the concrete runs: the failing run
exits 1, the successful empty-directory run exits 0. -/
theorem claim_C4_witness :
    (fatal_gerror "permission denied" cC2).exited = some 1
      ∧ cA3.rootDone = true ∧ (main_return cA3).exited = some 0 :=
  ⟨(claim_C4.1 cC2 "permission denied").1, rfl, claim_C4.2.2 cA3 rfl⟩

/-- Claim C5 (the code contradicts it): `print_progress` returns FALSE
(`G_SOURCE_REMOVE`), so GLib removes the 1-second timeout source after
its first fire — in any reachable state of any run the periodic
progress print has happened at most once, however long the run, instead
of once per second. -/
theorem claim_C5 :
    (∀ n : Nat, (print_progress n).2 = false) ∧
    (∀ c : Config, (timer_fire c).timerActive = false) ∧
    (∀ (cs : List FSTree) (tok : Option Nat) (c : Config),
       Reach (init cs tok) c → c.timerFires ≤ 1) := by
  refine ⟨fun n => rfl, fun c => rfl, ?_⟩
  intro cs tok c hr
  exact (reach_inv hr).timerLe

/-- Witness for C5: the completed empty-directory run fired the timer
at most once. -/
theorem claim_C5_witness : cA4.timerFires ≤ 1 :=
  claim_C5.2.2 [] none cA4 reachA4

/-- Counterexample for C6 as stated: on a batch with one regular file,
`on_next_files` requests the next batch (C line 136) strictly before it
increments `num_files_pending` for the batch's entry (C line 154) — the
request comes first in the callback body, refuting "each entry's
pendingChildren increment happens before the next batch is
requested". -/
theorem claim_C6_cex :
    (onNextFilesActions [FSTree.regular]).findIdx (· == Act.requestNextBatch)
      < (onNextFilesActions [FSTree.regular]).findIdx (· == Act.incrPending) := by
  decide

/-- Claim C6, amended: within one directory task, the next batch is
requested immediately after `have_more_files` is set — before, not
after, the current batch's entries are dispatched — but request and
dispatches all happen inside the same atomic callback invocation: the
callback body requests exactly once, then performs one
`num_files_pending` increment per entry of the batch, and the machine
transition for a non-empty batch both enqueues the next batch's
completion and performs every increment and dispatch of the current
batch, so batch N+1 is handled only after all of batch N has been
dispatched and counted. -/
theorem claim_C6 :
    (∀ batch : List FSTree, batch ≠ [] →
       ∃ tail, onNextFilesActions batch
           = Act.setHaveMore true :: Act.requestNextBatch :: tail
         ∧ Act.requestNextBatch ∉ tail
         ∧ tail.count Act.incrPending = batch.length) ∧
    (∀ (c : Config) (t : Nat) (k : Task) (q₁ q₂ : List Ev),
       c.tasks[t]? = some k → ¬k.enumRemaining.take batchSize = [] →
       (∃ k', (on_next_files t q₁ q₂ c).tasks[t]? = some k'
           ∧ k'.pending = k.pending + (k.enumRemaining.take batchSize).length
           ∧ k'.incrs = k.incrs + (k.enumRemaining.take batchSize).length)
         ∧ Ev.nextFilesDone t ∈ (on_next_files t q₁ q₂ c).queue) := by
  constructor
  · intro batch hb
    refine ⟨batch.flatMap (fun e =>
      [Act.incrPending,
       if fileType e = GFileType.directory then Act.dispatchRecurse
       else Act.dispatchLeafDelete]), ?_, requestNextBatch_not_mem_loop batch,
      count_incr_loop batch⟩
    unfold onNextFilesActions
    have : batch.isEmpty = false := by
      cases batch
      · exact absurd rfl hb
      · rfl
    rw [this]
    rfl
  · intro c t k q₁ q₂ hk hb
    have htv := lt_of_getElem?_eq_some hk
    rw [on_next_files_eq_cons hk hb]
    have hkM : ({ c with queue := q₁ ++ q₂ ++ [.nextFilesDone t], tasks := c.tasks.set t ({ k with haveMore := true, enumRemaining := k.enumRemaining.drop batchSize }), issues := c.issues ++ [⟨.contNext, none, none⟩] } : Config).tasks[t]? = some ({ k with haveMore := true, enumRemaining := k.enumRemaining.drop batchSize }) := by
      simp only
      exact List.getElem?_set_eq_of_lt _ htv
    constructor
    · obtain ⟨k', hk', hp, hi⟩ :=
        dispatchBatch_pending (k.enumRemaining.take batchSize) _ t _ hkM
      exact ⟨k', hk', by simpa using hp, by simpa using hi⟩
    · refine dispatchBatch_queue (k.enumRemaining.take batchSize) _ t _ hkM
        (Ev.nextFilesDone t) ?_
      simp

/-- Witness for C6 (amended) on run B: a singleton batch yields the
request-then-one-increment action list, and the machine transition
increments the task's pending count by the batch length. -/
theorem claim_C6_witness :
    (∃ tail, onNextFilesActions [FSTree.regular]
        = Act.setHaveMore true :: Act.requestNextBatch :: tail
      ∧ Act.requestNextBatch ∉ tail
      ∧ tail.count Act.incrPending = 1)
    ∧ Ev.nextFilesDone 0 ∈ (on_next_files 0 [] [] cB1).queue :=
  ⟨claim_C6.1 [FSTree.regular] (by simp),
   (claim_C6.2 cB1 0 tB1 [] [] rfl (by simp [tB1, cB1, cB0, init, rm_rf_async, on_enumerate_children, batchSize])).2⟩

/-- Counterexample for C7 as stated: in the concrete run with the
cancellation token `some 0` handed to the top-level operation, the
leaf `g_file_delete_async` (C line 161) is issued with a NULL
cancellable — the token is not threaded through every filesystem
operation. -/
theorem claim_C7_cex :
    Reach cB0 cB2
      ∧ Issue.mk Site.leafDelete none none ∈ cB2.issues
      ∧ ¬∀ is ∈ cB2.issues, is.tok = some 0 :=
  ⟨reachB2, by decide, by decide⟩

/-- Claim C7, amended: the cancellation token passed to the top-level
operation is stored in every directory task (the recursion passes
`data->cancellable` down) and is threaded through every listing open,
every first batch fetch and every directory delete; but every
continuation batch fetch (C line 136) and every leaf delete (C line
161) is issued with a NULL cancellable, and the token is never checked
before issuing work — cancellation can only surface as an operation
failure, which the error policy treats as fatal. -/
theorem claim_C7 : ∀ (cs : List FSTree) (tok : Option Nat) (c : Config),
    Reach (init cs tok) c →
    (∀ (i : Nat) (k : Task), c.tasks[i]? = some k → k.cancellable = tok) ∧
    (∀ is ∈ c.issues, is.tok = siteTok tok is.site) ∧
    siteTok tok Site.enumerate = tok ∧ siteTok tok Site.firstNext = tok
      ∧ siteTok tok Site.dirDelete = tok
      ∧ siteTok tok Site.contNext = none
      ∧ siteTok tok Site.leafDelete = none := by
  intro cs tok c hr
  have h := reach_inv hr
  exact ⟨fun i k hk => (h.task i k hk).cancelEq, h.issueTok,
    rfl, rfl, rfl, rfl, rfl⟩

/-- Witness for C7 (amended) on run B: every issue of the run carries
exactly the cancellable its call site passes. -/
theorem claim_C7_witness :
    Reach cB0 cB2 ∧ ∀ is ∈ cB2.issues, is.tok = siteTok (some 0) is.site :=
  ⟨reachB2, (claim_C7 [FSTree.regular] (some 0) cB2 reachB2).2.1⟩

/-- Claim C8: in every reachable state, every directory task's
`num_files_pending` is non-negative, equals its increments minus its
decrements (every decrement is matched by a prior increment), and the
surplus of increments over decrements is exactly the number of its
outstanding child operations (in-flight leaf deletes plus live child
tasks) — one increment per scheduled child operation, one decrement
per terminal outcome. -/
theorem claim_C8 : ∀ (cs : List FSTree) (tok : Option Nat) (c : Config),
    Reach (init cs tok) c → ∀ (i : Nat) (k : Task), c.tasks[i]? = some k →
      0 ≤ k.pending ∧ k.pending = (k.incrs : Int) - (k.decrs : Int)
        ∧ k.decrs ≤ k.incrs
        ∧ k.incrs = k.decrs + c.queue.countP (isFileDel i)
            + c.tasks.countP (isLiveChild i) := by
  intro cs tok c hr i k hk
  have h := reach_inv hr
  have ht := h.task i k hk
  have h1 := ht.pendEq
  have h2 := ht.oblig
  refine ⟨by omega, h1, by omega, by omega⟩

/-- Witness for C8 on run B, mid-flight: the root task has one pending
child (the in-flight leaf delete), and pending is non-negative. -/
theorem claim_C8_witness : 0 ≤ tB2.pending ∧ tB2.pending = 1 :=
  ⟨(claim_C8 [FSTree.regular] (some 0) cB2 reachB2 0 tB2 rfl).1, rfl⟩

/-- Claim C9: the listing is opened with symlink traversal disabled —
`rm_rf_async` passes `G_FILE_QUERY_INFO_NOFOLLOW_SYMLINKS`, and every
enumeration ever issued carries that flag; under it a symlink reports
its own type, so every symlink entry is classified as a leaf and
dispatched to a direct delete, never to a recursive walk; and every
directory task ever created originates from a directory entry, so no
symlink's target is ever enumerated. -/
theorem claim_C9 :
    enumerateFlags = GFileQueryInfoFlags.nofollowSymlinks ∧
    fileType FSTree.symlink = GFileType.symbolicLink ∧
    ∀ (cs : List FSTree) (tok : Option Nat) (c : Config),
      Reach (init cs tok) c →
      (∀ is ∈ c.issues, is.site = Site.enumerate →
         is.flags = some GFileQueryInfoFlags.nofollowSymlinks) ∧
      (∀ d ∈ c.dispatches,
         fileType d.entry = GFileType.symbolicLink → d.recursed = false) ∧
      (∀ (i : Nat) (k : Task), c.tasks[i]? = some k →
         ∃ l, k.origin = FSTree.dir l) := by
  refine ⟨rfl, rfl, ?_⟩
  intro cs tok c hr
  have h := reach_inv hr
  refine ⟨?_, ?_, ?_⟩
  · intro is his hsite
    have := h.issueFlags is his
    rw [this, hsite]
    rfl
  · intro d hd hsym
    have := h.dispOk d hd
    rw [this]
    simp [hsym]
  · intro i k hk
    obtain ⟨l, hl, _⟩ := (h.task i k hk).originDir
    exact ⟨l, hl⟩

/-- Witness for C9 on run D: the symlink entry was dispatched as a leaf
(no recursion). -/
theorem claim_C9_witness :
    Dispatch.mk FSTree.symlink false ∈ cD2.dispatches
      ∧ (Dispatch.mk FSTree.symlink false).recursed = false :=
  ⟨by rw [show cD2.dispatches = [Dispatch.mk FSTree.symlink false] from rfl]
      exact List.mem_singleton_self _,
   (claim_C9.2.2 [FSTree.symlink] none cD2 reachD2).2.1
     (Dispatch.mk FSTree.symlink false)
     (by rw [show cD2.dispatches = [Dispatch.mk FSTree.symlink false] from rfl]
         exact List.mem_singleton_self _) rfl⟩

/-- Claim C10: `main` performs no argument validation — it reads
`argv[1]` unconditionally, so with no positional argument the NULL
terminator of `argv` is what reaches `g_file_new_for_path`, and any
arguments beyond the first are ignored (the read value does not depend
on them). -/
theorem claim_C10 : ∀ prog : String,
    mainPathArg prog [] = none
      ∧ ∀ (a : String) (rest : List String),
          mainPathArg prog (a :: rest) = some a := by
  intro prog
  exact ⟨rfl, fun a rest => rfl⟩

end RmRf

namespace RmRf

/-- Witness for C10: invoked with no arguments, `main` passes NULL to
the path constructor; an extra second argument is ignored. -/
theorem claim_C10_witness :
    mainPathArg "rm-rf-async" [] = none
      ∧ mainPathArg "rm-rf-async" ["/tmp/x", "ignored"] = some "/tmp/x" :=
  ⟨(claim_C10 "rm-rf-async").1,
   (claim_C10 "rm-rf-async").2 "/tmp/x" ["ignored"]⟩

end RmRf
